import Mathlib

/-!
Verification of the timestamped B-tree in pkg/tbtree/tbtree.go.

The embedding is a direct functional translation of the Go source:
  - byte slices become lists of naturals (Go bytes.Compare is `bytesCompare`),
  - Go `int` becomes `Int` (no arithmetic in the source comes close to
    overflowing a 64-bit int on the inputs considered here),
  - Go `uint64` becomes `Nat`,
  - slice copies in the source are denoted by take/drop concatenations
    (`copy(dst[:i], src[:i]); dst[i] = x; copy(dst[i+1:], src[i:])` builds
    exactly `src.take i ++ x :: src.drop i`, and similarly for the other
    copy patterns),
  - Go panics (out-of-range index, `maxKey` on an empty node) are modelled
    by `Option`: a `none` result means the corresponding Go code would
    panic,
  - the `prevNode` and `offset` fields are omitted: no operation modelled
    here ever reads them (`prevNode` is only assigned, `offset` is only
    used by the absent persistence layer).
-/

set_option maxHeartbeats 1000000
set_option maxRecDepth 4000

namespace TBTreeGo

abbrev Key := List Nat
abbrev Val := List Nat

/-- The error values declared at the top of tbtree.go. -/
inductive TErr where
  | illegalArgument
  | keyNotFound
  | illegalState
  | alreadyClosed
  | snapshotsNotClosed
deriving DecidableEq

/-- Go's bytes.Compare: lexicographic byte-wise comparison, -1 / 0 / 1. -/
def bytesCompare : List Nat → List Nat → Int
  | [], [] => 0
  | [], _ :: _ => -1
  | _ :: _, [] => 1
  | a :: as, b :: bs =>
    if a < b then -1 else if b < a then 1 else bytesCompare as bs

/-- The `leafValue` struct: (key, ts, prevTs, value). -/
structure LeafValue where
  key : Key
  ts : Nat
  prevTs : Nat
  value : Val
deriving DecidableEq

/-- leafValue.size(): 16 + len(key) + len(value). -/
def LeafValue.size (lv : LeafValue) : Int :=
  16 + lv.key.length + lv.value.length

/-- The node interface realised by its two implementations, `leafNode`
(an ordered run of entries) and `innerNode` (an ordered run of child
references `childRef{key, cts, node}`, here a triple key × cts × node). -/
inductive Node where
  | leaf (values : List LeafValue) (cts : Nat) (csize : Int) (maxSize : Int)
  | inner (nodes : List (Key × Nat × Node)) (cts : Nat) (csize : Int) (maxSize : Int)

abbrev ChildRef := Key × Nat × Node

/-- leafNode.ts() / innerNode.ts(): the cts field. -/
def Node.ts : Node → Nat
  | .leaf _ cts _ _ => cts
  | .inner _ cts _ _ => cts

/-- maxKey(): the key of the last entry / last child reference.
`none` models the Go panic on an empty node. -/
def Node.maxKey : Node → Option Key
  | .leaf values _ _ _ => values.getLast?.map LeafValue.key
  | .inner refs _ _ _ => refs.getLast?.map Prod.fst

/-- leafNode.indexOf: scan ascending; (i, true) on bytes.Equal,
(i, false) at the first strictly greater key, (len, false) otherwise. -/
def leafIndexOf : List LeafValue → Key → Nat × Bool
  | [], _ => (0, false)
  | v :: rest, key =>
    if v.key = key then (0, true)
    else if bytesCompare v.key key = 1 then (0, false)
    else ((leafIndexOf rest key).1 + 1, (leafIndexOf rest key).2)

/-- Scan used by innerNode.indexOf: first position whose key is ≥ the
searched key (bytes.Compare < 1). -/
def innerIndexOfAux : List ChildRef → Key → Nat → Option Nat
  | [], _, _ => none
  | c :: rest, key, i =>
    if bytesCompare key c.1 < 1 then some i else innerIndexOfAux rest key (i + 1)

/-- innerNode.indexOf: the scan position, or len - 1 when the scan finds
nothing (which is -1 on an empty node, hence the Int result). -/
def innerIndexOf (refs : List ChildRef) (key : Key) : Int :=
  match innerIndexOfAux refs key 0 with
  | some i => (i : Int)
  | none => (refs.length : Int) - 1

/-- The loop body shared by leafNode.splitInfo and innerNode.splitInfo:
`splitIndex` tracks the loop counter and the loop breaks at the first
element whose size would push the accumulated size beyond maxSize. -/
def splitInfoGo (maxSize : Int) : List Int → Nat → Int → Nat × Int
  | [], i, acc => (i, acc)
  | [s], i, acc => if acc + s > maxSize then (i, acc) else (i, acc + s)
  | s :: s2 :: rest, i, acc =>
    if acc + s > maxSize then (i, acc)
    else splitInfoGo maxSize (s2 :: rest) (i + 1) (acc + s)

/-- leafNode.splitInfo. -/
def leafSplitInfo (values : List LeafValue) (maxSize : Int) : Nat × Int :=
  splitInfoGo maxSize (values.map LeafValue.size) 0 0

/-- leafNode.updateTs: cts := max of entry timestamps (0 when empty). -/
def updateTsL (values : List LeafValue) : Nat :=
  values.foldl (fun c v => if c < v.ts then v.ts else c) 0

/-- leafNode.split, acting on the fields of the leaf it is called on and
returning (node kept in place, optional right node). -/
def leafSplit (values : List LeafValue) (cts : Nat) (csize maxSize : Int) :
    Node × Option Node :=
  if csize ≤ maxSize then (.leaf values cts csize maxSize, none)
  else
    let si := (leafSplitInfo values maxSize).1
    let ss := (leafSplitInfo values maxSize).2
    (.leaf (values.take si) (updateTsL (values.take si)) ss maxSize,
     some (.leaf (values.drop si) (updateTsL (values.drop si)) (csize - ss) maxSize))

/-- leafNode.insertAt.  The replacement branch keeps the old csize and sets
prevTs from the entry being replaced; the insertion branch extends the run
at the scan position and then calls split. -/
def leafInsertAt (values : List LeafValue) (csize maxSize : Int)
    (key : Key) (value : Val) (ts : Nat) : Node × Option Node :=
  let i := (leafIndexOf values key).1
  if (leafIndexOf values key).2 then
    -- found: i < values.length, so the lookup below never takes the default
    let prev := match values.get? i with | some old => old.ts | none => 0
    (.leaf (values.take i ++ ⟨key, ts, prev, value⟩ :: values.drop (i + 1))
       ts csize maxSize, none)
  else
    let lv : LeafValue := ⟨key, ts, 0, value⟩
    leafSplit (values.take i ++ lv :: values.drop i) ts (csize + lv.size) maxSize

/-- innerNode.updateSize: csize := sum of child-reference key lengths. -/
def updateSizeI (refs : List ChildRef) : Int :=
  refs.foldl (fun acc c => acc + c.1.length) 0

/-- innerNode.updateTs: cts := max of child-reference timestamps. -/
def updateTsI (refs : List ChildRef) : Nat :=
  refs.foldl (fun c r => if c < r.2.1 then r.2.1 else c) 0

/-- innerNode.splitInfo. -/
def innerSplitInfo (refs : List ChildRef) (maxSize : Int) : Nat × Int :=
  splitInfoGo maxSize (refs.map (fun c => (c.1.length : Int))) 0 0

/-- innerNode.split. -/
def innerSplit (refs : List ChildRef) (cts : Nat) (csize maxSize : Int) :
    Node × Option Node :=
  if csize ≤ maxSize then (.inner refs cts csize maxSize, none)
  else
    let si := (innerSplitInfo refs maxSize).1
    let ss := (innerSplitInfo refs maxSize).2
    (.inner (refs.take si) (updateTsI (refs.take si)) ss maxSize,
     some (.inner (refs.drop si) (updateTsI (refs.drop si)) (csize - ss) maxSize))

mutual
/-- The node interface method insertAt, dispatching on the node kind
(leafNode.insertAt / innerNode.insertAt).  A `none` result models a Go
panic; the error component of the Go result is threaded through `Except`.
The inner branch accesses the child at position indexOf(key), recurses,
and rebuilds the reference run with one (replacement, no split) or two
(child split, followed by split of this node) new references in place of
the old one; `childInsert` performs the indexed access and the rebuild. -/
def Node.insertAt : Node → Key → Val → Nat → Option (Except TErr (Node × Option Node))
  | .leaf values _ csize maxSize, key, value, ts =>
    some (.ok (leafInsertAt values csize maxSize key value ts))
  | .inner refs _ _ maxSize, key, value, ts =>
    match childInsert refs (innerIndexOf refs key) key value ts with
    | none => none
    | some (.error e) => some (.error e)
    | some (.ok (newRefs, true)) =>
      some (.ok (innerSplit newRefs ts (updateSizeI newRefs) maxSize))
    | some (.ok (newRefs, false)) =>
      some (.ok (.inner newRefs ts (updateSizeI newRefs) maxSize, none))

/-- Walk to position i of the reference run (a `none` for a position
outside the run models the Go index panic), recurse into that child, and
substitute the new child reference(s) for the old one — the copies
`copy(new[:i], old[:i]); new[i] = c1; (new[i+1] = c2;) copy(..., old[i+1:])`
of innerNode.insertAt.  The Bool reports whether the child split, i.e.
whether innerNode.insertAt goes on to call split on the rebuilt node. -/
def childInsert : List ChildRef → Int → Key → Val → Nat →
    Option (Except TErr (List ChildRef × Bool))
  | [], _, _, _, _ => none
  | c :: rest, i, key, value, ts =>
    if i < 0 then none
    else if i = 0 then
      match c.2.2.insertAt key value ts with
      | none => none
      | some (.error e) => some (.error e)
      | some (.ok (c1, none)) =>
        match c1.maxKey with
        | none => none
        | some mk1 => some (.ok ((mk1, c1.ts, c1) :: rest, false))
      | some (.ok (c1, some c2)) =>
        match c1.maxKey, c2.maxKey with
        | some mk1, some mk2 =>
          some (.ok ((mk1, c1.ts, c1) :: (mk2, c2.ts, c2) :: rest, true))
        | _, _ => none
    else
      match childInsert rest (i - 1) key value ts with
      | none => none
      | some (.error e) => some (.error e)
      | some (.ok (rest2, sp)) => some (.ok (c :: rest2, sp))
end

mutual
/-- The node interface method get (leafNode.get / innerNode.get). -/
def Node.get : Node → Key → Option (Except TErr (Val × Nat))
  | .leaf values _ _ _, key =>
    let i := (leafIndexOf values key).1
    if (leafIndexOf values key).2 then
      match values.get? i with
      | some lv => some (.ok (lv.value, lv.ts))
      | none => none
    else some (.error .keyNotFound)
  | .inner refs _ _ _, key => childGet refs (innerIndexOf refs key) key

/-- Access at position i for innerNode.get: reject keys beyond the child's
max key (bytes.Compare == 1 ⇒ KeyNotFound), otherwise delegate. -/
def childGet : List ChildRef → Int → Key → Option (Except TErr (Val × Nat))
  | [], _, _ => none
  | c :: rest, i, key =>
    if i < 0 then none
    else if i = 0 then
      if bytesCompare key c.1 = 1 then some (.error .keyNotFound)
      else c.2.2.get key
    else childGet rest (i - 1) key
end

mutual
/-- In-order run of entries stored below a node (observer used to state
properties; leaves hold their values, inner nodes concatenate children). -/
def Node.entries : Node → List LeafValue
  | .leaf values _ _ _ => values
  | .inner refs _ _ _ => entriesL refs
/-- Entries below a run of child references, in order. -/
def entriesL : List ChildRef → List LeafValue
  | [] => []
  | c :: cs => c.2.2.entries ++ entriesL cs
end

mutual
/-- Observer: does every node in the graph satisfy csize ≤ maxSize? -/
def csizeOKb : Node → Bool
  | .leaf _ _ cs ms => decide (cs ≤ ms)
  | .inner refs _ cs ms => decide (cs ≤ ms) && csizeOKbL refs
/-- csizeOKb over a run of child references. -/
def csizeOKbL : List ChildRef → Bool
  | [] => true
  | c :: cs => csizeOKb c.2.2 && csizeOKbL cs
end

/-- Observer: is the node an inner node? -/
def Node.isInner : Node → Bool
  | .leaf _ _ _ _ => false
  | .inner _ _ _ _ => true

/-- The Snapshot struct as constructed by TBtree.newSnapshot: its id and
the captured root (the parent pointer and reader table play no part in
the operations modelled here). -/
structure Snapshot where
  id : Nat
  root : Node

/-- The TBtree struct.  The snapshot map becomes an association list
(ids are fresh on every extension, so lookup agrees with the Go map). -/
structure TBtree where
  root : Node
  maxNodeSize : Int
  insertionCount : Nat
  insertionCountThreshold : Nat
  lastFlushedTs : Nat
  snapshots : List (Nat × Snapshot)
  maxSnapshotId : Nat
  closed : Bool

/-- NewWith: option validation and the initial empty-leaf root. -/
def newWith (maxNodeSize : Int) (insertionCountThreshold : Nat) : Except TErr TBtree :=
  if maxNodeSize < 64 ∨ insertionCountThreshold < 1 then .error .illegalArgument
  else .ok ⟨.leaf [] 0 0 maxNodeSize, maxNodeSize, 0, insertionCountThreshold,
            0, [], 0, false⟩

/-- TBtree.Insert.  The result pairs the post-state with the returned
error (`none` = nil); an overall `none` models a panic inside the call.
The Go receiver key is `Option Key`, `none` standing for a nil slice. -/
def TBtree.insert (t : TBtree) (key : Option Key) (value : Val) (ts : Nat) :
    Option (TBtree × Option TErr) :=
  if t.closed then some (t, some .alreadyClosed)
  else
    match key with
    | none => some (t, some .illegalArgument)
    | some k =>
      if t.root.ts ≥ ts then some (t, some .illegalArgument)
      else
        match t.root.insertAt k value ts with
        | none => none
        | some (.error e) => some (t, some e)
        | some (.ok (n1, none)) =>
          some (⟨n1, t.maxNodeSize, t.insertionCount + 1, t.insertionCountThreshold,
                 t.lastFlushedTs, t.snapshots, t.maxSnapshotId, t.closed⟩, none)
        | some (.ok (n1, some n2)) =>
          match n1.maxKey, n2.maxKey with
          | some k1, some k2 =>
            let ns : List ChildRef := [(k1, n1.ts, n1), (k2, n2.ts, n2)]
            some (⟨.inner ns ts (updateSizeI ns) t.maxNodeSize, t.maxNodeSize,
                   t.insertionCount + 1, t.insertionCountThreshold, t.lastFlushedTs,
                   t.snapshots, t.maxSnapshotId, t.closed⟩, none)
          | _, _ => none

/-- TBtree.newSnapshot: capture the root under the next id, reset the
insertion counter, record the snapshot. -/
def TBtree.newSnapshot (t : TBtree) : TBtree × Snapshot :=
  let s : Snapshot := ⟨t.maxSnapshotId, t.root⟩
  (⟨t.root, t.maxNodeSize, 0, t.insertionCountThreshold, t.lastFlushedTs,
    (s.id, s) :: t.snapshots, t.maxSnapshotId + 1, t.closed⟩, s)

/-- TBtree.Snapshot.  The sharing branch returns the map lookup at
maxSnapshotId, which for a missing id is Go's nil pointer, here `none`. -/
def TBtree.snapshot (t : TBtree) : TBtree × Except TErr (Option Snapshot) :=
  if t.closed then (t, .error .alreadyClosed)
  else if t.snapshots.length > 0 ∧ t.insertionCount ≤ t.insertionCountThreshold then
    (t, .ok (List.lookup t.maxSnapshotId t.snapshots))
  else
    let p := t.newSnapshot
    (p.1, .ok (some p.2))

/-! ### Observers and scenario drivers -/

/-- Observer: the csize field of a node. -/
def Node.csize : Node → Int
  | .leaf _ _ cs _ => cs
  | .inner _ _ cs _ => cs

/-- Observer: the maxSize field of a node. -/
def Node.maxSizeF : Node → Int
  | .leaf _ _ _ ms => ms
  | .inner _ _ _ ms => ms

/-- Driver: unwrap a successful NewWith. -/
def okTree : Except TErr TBtree → Option TBtree
  | .ok t => some t
  | .error _ => none

/-- Driver: apply one Insert that must succeed (return no error, no panic). -/
def insOk (t? : Option TBtree) (k : Key) (v : Val) (ts : Nat) : Option TBtree :=
  t?.bind fun t =>
    match t.insert (some k) v ts with
    | some (t2, none) => some t2
    | _ => none

/-- Driver: a run of Inserts, each of which must succeed. -/
def multiInsert (t : TBtree) : List (Key × Val × Nat) → Option TBtree
  | [] => some t
  | (k, v, ts) :: ops =>
    match t.insert (some k) v ts with
    | some (t2, none) => multiInsert t2 ops
    | _ => none

/-- A tree created with maxNodeSize = 64 (the minimum) and the default
insertion count threshold. -/
def tree64 : Option TBtree := okTree (newWith 64 100000)

/-- A tree created with the default options (maxNodeSize 4096). -/
def tree4096 : Option TBtree := okTree (newWith 4096 100000)

/-- The scenario of C8: three small inserts into a maxNodeSize-64 tree. -/
def c8run : Option TBtree :=
  insOk (insOk (insOk tree64 [97] [49] 1) [98] [50] 2) [99] [51] 3

/-- Three inserts into a maxNodeSize-64 tree whose third insert splits the
leaf [17, 60, 47 bytes] after the first entry, publishing a right leaf of
csize 107 > 64. -/
def c3run : Option TBtree :=
  insOk (insOk (insOk tree64 [97] [] 1) [99] (List.replicate 30 120) 2)
    [98] (List.replicate 43 121) 3

/-- A closed tree (as a tree becomes after Close()). -/
def closedTree : TBtree := ⟨.leaf [] 0 0 64, 64, 0, 1, 0, [], 0, true⟩

/-- Observer: total size of a run of entries (what csize accounts for). -/
def sumSizes (values : List LeafValue) : Int :=
  (values.map LeafValue.size).sum

/-- Observer: size of the entry at position j (0 outside the run). -/
def sizeAt (values : List LeafValue) (j : Nat) : Int :=
  ((values.get? j).map LeafValue.size).getD 0

mutual
/-- Size-safety invariant for nodes of a tree with budget ms: every
entry fits the budget, every inner node is non-empty with child
reference keys fitting the budget (with the 16-byte entry overhead), the
maxSize field is ms everywhere, and an empty leaf (only the fresh root)
has csize 0.  It holds for a fresh tree and is preserved by inserts of
entries within the budget. -/
def sizeSafeB (ms : Int) : Node → Bool
  | .leaf values _ cs ms2 =>
    decide (ms2 = ms) && (!values.isEmpty || decide (cs = 0)) && entriesSmallB ms values
  | .inner refs _ _ ms2 =>
    decide (ms2 = ms) && (!refs.isEmpty) && refsSmallB ms refs
/-- Every entry of the run fits the budget. -/
def entriesSmallB (ms : Int) : List LeafValue → Bool
  | [] => true
  | e :: es => decide (e.size ≤ ms) && entriesSmallB ms es
/-- Every child reference has a key fitting the budget (with the 16-byte
overhead of an entry) and a size-safe child. -/
def refsSmallB (ms : Int) : List ChildRef → Bool
  | [] => true
  | c :: cs =>
    decide ((c.1.length : Int) + 16 ≤ ms) && sizeSafeB ms c.2.2 && refsSmallB ms cs
end

/-- Strict key order: bytes.Compare yields -1. -/
def keyLt (a b : Key) : Prop := bytesCompare a b = -1

instance : DecidableRel keyLt :=
  fun a b => inferInstanceAs (Decidable (bytesCompare a b = -1))

/-- Keys of a run of entries, in order. -/
def keysOf (es : List LeafValue) : List Key := es.map LeafValue.key

/-- The two nodes an insertAt returns, flattened to their in-order
entries. -/
def entriesPair (r : Node × Option Node) : List LeafValue :=
  r.1.entries ++ (match r.2 with | some n2 => n2.entries | none => [])

/-- Specification-side description of what one insert does to the
in-order run of entries: replace the first key-equal entry (recording
its ts as the new prevTs) or insert a fresh entry (prevTs 0) before the
first strictly greater key. -/
def insEntries (es : List LeafValue) (k : Key) (v : Val) (ts : Nat) : List LeafValue :=
  match es with
  | [] => [⟨k, ts, 0, v⟩]
  | e :: rest =>
    if e.key = k then ⟨k, ts, e.ts, v⟩ :: rest
    else if bytesCompare e.key k = 1 then ⟨k, ts, 0, v⟩ :: e :: rest
    else e :: insEntries rest k v ts

/-- Observer: the first stored entry with the given key. -/
def findEntry (es : List LeafValue) (k : Key) : Option LeafValue :=
  es.find? (fun e => decide (e.key = k))

mutual
/-- Well-formedness of the node graph: entry keys are strictly ascending
within every flattened subtree, inner nodes are non-empty, and every
child reference carries exactly its child's maxKey over a non-empty
child. -/
def wfB : Node → Bool
  | .leaf values _ _ _ => decide (List.Pairwise keyLt (keysOf values))
  | .inner refs _ _ _ =>
    (!refs.isEmpty) && wfRefsB refs &&
      decide (List.Pairwise keyLt (keysOf (entriesL refs)))
/-- Well-formedness of a run of child references. -/
def wfRefsB : List ChildRef → Bool
  | [] => true
  | c :: cs =>
    wfB c.2.2 && (!(Node.entries c.2.2).isEmpty) &&
      decide (c.2.2.maxKey = some c.1) && wfRefsB cs
end

/-- A node fit to be referenced by a parent: well-formed, non-empty, and
its maxKey is the last key of its in-order entry run. -/
def proper (m : Node) : Prop :=
  wfB m = true ∧ m.entries ≠ [] ∧ m.maxKey = (keysOf m.entries).getLast?

/-- The tree state after taking one snapshot of a fresh default tree
(used to witness snapshot isolation). -/
def c6tree : TBtree :=
  ⟨.leaf [] 0 0 4096, 4096, 0, 100000, 0,
   [(0, ⟨0, .leaf [] 0 0 4096⟩)], 1, false⟩

/-! ### Theorems -/

mutual
/-- insertAt never returns an error value: leafNode.insertAt always
returns err = nil, and innerNode.insertAt only forwards child errors. -/
theorem insertAt_no_error : ∀ (n : Node) (k : Key) (v : Val) (ts : Nat) (e : TErr),
    ¬ n.insertAt k v ts = some (.error e)
  | .leaf values cts cs ms, k, v, ts, e => by simp [Node.insertAt]
  | .inner refs cts cs ms, k, v, ts, e => by
    have h := childInsert_no_error refs (innerIndexOf refs k) k v ts e
    simp only [Node.insertAt]
    cases hc : childInsert refs (innerIndexOf refs k) k v ts with
    | none => simp
    | some r =>
      cases r with
      | error e2 =>
        intro hcontra
        simp only [hc] at hcontra
        exact h (by simp_all)
      | ok p =>
        rcases p with ⟨newRefs, sp⟩
        cases sp <;> simp [hc]

/-- childInsert never returns an error value. -/
theorem childInsert_no_error : ∀ (refs : List ChildRef) (i : Int) (k : Key) (v : Val)
    (ts : Nat) (e : TErr), ¬ childInsert refs i k v ts = some (.error e)
  | [], i, k, v, ts, e => by simp [childInsert]
  | c :: rest, i, k, v, ts, e => by
    have h1 := insertAt_no_error c.2.2 k v ts e
    have h2 := childInsert_no_error rest (i - 1) k v ts e
    simp only [childInsert]
    split
    · simp
    · split
      · cases hc : c.2.2.insertAt k v ts with
        | none => simp
        | some r =>
          cases r with
          | error e2 =>
            intro hcontra
            simp only [hc] at hcontra
            exact h1 (by simp_all)
          | ok p =>
            rcases p with ⟨c1, c2?⟩
            cases c2? with
            | none => cases hm : c1.maxKey <;> simp [hc, hm]
            | some c2 =>
              cases hm1 : c1.maxKey <;> cases hm2 : c2.maxKey <;> simp [hc, hm1, hm2]
      · cases hc : childInsert rest (i - 1) k v ts with
        | none => simp
        | some r =>
          cases r with
          | error e2 =>
            intro hcontra
            simp only [hc] at hcontra
            exact h2 (by simp_all)
          | ok p => rcases p with ⟨rest2, sp⟩; simp [hc]
end

/-- C9: whenever Insert returns an error, the tree state — root,
insertion count and snapshot table included — is exactly the state
before the call. -/
theorem insert_error_state_unchanged (t : TBtree) (key : Option Key) (value : Val)
    (ts : Nat) (t2 : TBtree) (e : TErr)
    (h : t.insert key value ts = some (t2, some e)) : t2 = t := by
  unfold TBtree.insert at h
  split at h
  · exact ((Prod.mk.injEq _ _ _ _).mp (Option.some.inj h)).1.symm
  · split at h
    · exact ((Prod.mk.injEq _ _ _ _).mp (Option.some.inj h)).1.symm
    · split at h
      · exact ((Prod.mk.injEq _ _ _ _).mp (Option.some.inj h)).1.symm
      · split at h <;> (try split at h) <;> simp_all

/-- Witness for C9 at a concrete input: inserting into a closed tree
returns AlreadyClosed and an unchanged state. -/
theorem insert_error_state_unchanged_witness :
    closedTree.insert (some [97]) [49] 1 = some (closedTree, some .alreadyClosed) ∧
      closedTree = closedTree :=
  ⟨by rfl, insert_error_state_unchanged closedTree (some [97]) [49] 1 closedTree
      .alreadyClosed (by rfl)⟩

/-- C1 (code bug): on a fresh default tree, the first Snapshot() call
creates snapshot id 0 (and bumps maxSnapshotId to 1), but the second,
sharing-branch call looks the map up at maxSnapshotId — one past the
latest id — and therefore returns a nil snapshot even though the latest
snapshot (id 0) is still recorded in the table. -/
theorem snapshot_sharing_returns_nil :
    tree4096.map (fun t =>
      ((t.snapshot).2,
       (((t.snapshot).1).snapshot).2,
       (List.lookup 0 ((t.snapshot).1).snapshots).map Snapshot.id,
       ((t.snapshot).1).maxSnapshotId))
      = some (.ok (some ⟨0, .leaf [] 0 0 4096⟩), .ok none, some 0, 1) := by rfl

/-- C8 counterexample: after the three inserts of the scenario the root
is NOT an inner node — entry sizes are 18 bytes each, so the leaf holds
54 ≤ 64 bytes and never splits. -/
theorem three_inserts_root_still_leaf :
    c8run.map (fun t => t.root.isInner) = some false := by rfl

/-- C8 amended: after inserting ("a","1",1), ("b","2",2), ("c","3",3)
into a fresh maxNodeSize-64 tree the root is still a single leaf holding
the three entries in order a, b, c with cts = 3 and csize = 54. -/
theorem three_inserts_root_leaf_abc :
    c8run = some ⟨.leaf [⟨[97], 1, 0, [49]⟩, ⟨[98], 2, 0, [50]⟩, ⟨[99], 3, 0, [51]⟩]
      3 54 64, 64, 3, 100000, 0, [], 0, false⟩ := by rfl

/-- C3 counterexample: three successful inserts into a fresh
maxNodeSize-64 tree (sizes 17, 47, then 60 in key order a < b < c) make
the third insert split [17, 60, 47] after the first entry, publishing a
right leaf of csize 107 > 64: after Insert returns, a reachable node
exceeds max_size. -/
theorem csize_budget_violated_after_insert :
    c3run.map (fun t => csizeOKb t.root) = some false := by rfl

/-- The splitInfo loop never accumulates past maxSize: it only adds an
element's size when the sum stays within the budget. -/
theorem splitInfoGo_acc_le (ms : Int) :
    ∀ (l : List Int) (i : Nat) (acc : Int), acc ≤ ms → (splitInfoGo ms l i acc).2 ≤ ms
  | [], i, acc, h => h
  | [s], i, acc, h => by
    simp only [splitInfoGo]
    split
    · exact h
    · omega
  | s :: s2 :: rest, i, acc, h => by
    simp only [splitInfoGo]
    split
    · exact h
    · exact splitInfoGo_acc_le ms (s2 :: rest) (i + 1) (acc + s) (by omega)

/-- C3 amended: a node's csize can exceed max_size after Insert returns
(the right half of a split and an inner node whose child reference grew
are published without a further split); what does hold is the budget on
the retained half: the node kept in place by split — leaf or inner —
always has csize ≤ max_size. -/
theorem split_retained_half_within_budget (values : List LeafValue)
    (refs : List ChildRef) (cts : Nat) (cs ms : Int) (h : 0 ≤ ms) :
    ((leafSplit values cts cs ms).1).csize ≤ ms ∧
      ((innerSplit refs cts cs ms).1).csize ≤ ms := by
  constructor
  · unfold leafSplit
    split
    · simpa [Node.csize]
    · simpa [Node.csize] using
        splitInfoGo_acc_le ms (values.map LeafValue.size) 0 0 h
  · unfold innerSplit
    split
    · simpa [Node.csize]
    · simpa [Node.csize] using
        splitInfoGo_acc_le ms (refs.map (fun c => (c.1.length : Int))) 0 0 h

/-- Witness for the amended C3 at a concrete input. -/
theorem split_retained_half_within_budget_witness :
    (0 : Int) ≤ 64 ∧
      ((leafSplit [⟨[97], 1, 0, [49]⟩, ⟨[98], 2, 0, List.replicate 60 122⟩] 2 96 64).1).csize ≤ 64 :=
  ⟨by decide,
   (split_retained_half_within_budget
      [⟨[97], 1, 0, [49]⟩, ⟨[98], 2, 0, List.replicate 60 122⟩] [] 2 96 64 (by decide)).1⟩

/-- C5 counterexample: inserting an EMPTY (but non-nil) key into a fresh
open tree succeeds — the code only rejects nil keys, so the claimed
IllegalArgument for empty keys does not occur. -/
theorem empty_key_insert_succeeds :
    tree4096.map (fun t => (t.insert (some []) [49] 1).map Prod.snd)
      = some (some none) := by rfl

/-- C5 amended: Insert fails IllegalArgument exactly when the key is nil
or ts ≤ root.ts (an empty non-nil key is accepted); AlreadyClosed when
the tree is closed; otherwise — open tree, non-nil key, ts > root.ts —
whatever Insert returns carries no error. -/
theorem insert_error_characterization (t : TBtree) (key : Option Key) (v : Val) (ts : Nat) :
    (t.closed = true → t.insert key v ts = some (t, some .alreadyClosed)) ∧
    (t.closed = false → (key = none ∨ ts ≤ t.root.ts) →
      t.insert key v ts = some (t, some .illegalArgument)) ∧
    (t.closed = false → ∀ k, key = some k → t.root.ts < ts →
      ∀ r, t.insert key v ts = some r → r.2 = none) := by
  refine ⟨fun hc => by simp [TBtree.insert, hc], fun hc hbad => ?_, fun hc k hk hts r hr => ?_⟩
  · rcases hbad with hnone | hts
    · simp [TBtree.insert, hc, hnone]
    · cases key with
      | none => simp [TBtree.insert, hc]
      | some k =>
        simp only [TBtree.insert, hc, Bool.false_eq_true, if_false]
        rw [if_pos (show t.root.ts ≥ ts from hts)]
  · subst hk
    simp only [TBtree.insert] at hr
    rw [if_neg (show ¬ t.closed = true by simp [hc])] at hr
    rw [if_neg (show ¬ t.root.ts ≥ ts by omega)] at hr
    cases hins : (t.root.insertAt k v ts) with
    | none => rw [hins] at hr; exact absurd hr (by simp)
    | some res =>
      rw [hins] at hr
      cases res with
      | error e => exact absurd hins (insertAt_no_error t.root k v ts e)
      | ok p =>
        rcases p with ⟨n1, n2?⟩
        cases n2? with
        | none =>
          rcases Option.some.inj hr with h2
          rw [← h2]
        | some n2 =>
          cases hm1 : n1.maxKey with
          | none => simp [hm1] at hr
          | some mk1 =>
            cases hm2 : n2.maxKey with
            | none => simp [hm1, hm2] at hr
            | some mk2 =>
              simp only [hm1, hm2] at hr
              rcases Option.some.inj hr with h2
              rw [← h2]

/-- Witness for the amended C5 at a concrete input: the empty-key insert
on a fresh tree returns no error. -/
theorem insert_error_characterization_witness :
    ∀ r, (⟨.leaf [] 0 0 4096, 4096, 0, 100000, 0, [], 0, false⟩ : TBtree).insert
        (some []) [49] 1 = some r → r.2 = none :=
  fun r hr =>
    (insert_error_characterization ⟨.leaf [] 0 0 4096, 4096, 0, 100000, 0, [], 0, false⟩
      (some []) [49] 1).2.2 rfl [] rfl (by decide) r hr

/-- The scan position of leafNode.indexOf never exceeds the run length. -/
theorem leafIndexOf_fst_le (k : Key) :
    ∀ values : List LeafValue, (leafIndexOf values k).1 ≤ values.length
  | [] => by simp [leafIndexOf]
  | v :: rest => by
    have ih := leafIndexOf_fst_le k rest
    simp only [leafIndexOf]
    split
    · simp
    · split
      · simp
      · simpa using Nat.succ_le_succ ih

/-- C4: on a not-found leaf insert at scan position i, the new run is the
old entries below i unchanged, the fresh entry (key, ts, prev_ts = 0,
value) at i, the old entries from i on shifted right by one (each old
entry kept exactly once), the new csize is the old csize plus the size of
the new entry, and split is then applied to the result. -/
theorem leaf_insert_not_found_layout (values : List LeafValue) (cs ms : Int)
    (k : Key) (v : Val) (ts : Nat) (i : Nat)
    (hf : (leafIndexOf values k).2 = false)
    (hi : i = (leafIndexOf values k).1) :
    leafInsertAt values cs ms k v ts =
      leafSplit (values.take i ++ ⟨k, ts, 0, v⟩ :: values.drop i) ts
        (cs + (⟨k, ts, 0, v⟩ : LeafValue).size) ms ∧
    (values.take i ++ ⟨k, ts, 0, v⟩ :: values.drop i).length = values.length + 1 ∧
    (∀ j, j < i →
      (values.take i ++ ⟨k, ts, 0, v⟩ :: values.drop i).get? j = values.get? j) ∧
    (values.take i ++ ⟨k, ts, 0, v⟩ :: values.drop i).get? i = some ⟨k, ts, 0, v⟩ ∧
    (∀ j, i ≤ j →
      (values.take i ++ ⟨k, ts, 0, v⟩ :: values.drop i).get? (j + 1) = values.get? j) ∧
    (∀ e : LeafValue, (values.take i ++ ⟨k, ts, 0, v⟩ :: values.drop i).count e =
      values.count e + (if e = ⟨k, ts, 0, v⟩ then 1 else 0)) := by
  have hle : i ≤ values.length := hi ▸ leafIndexOf_fst_le k values
  have hlt : (values.take i).length = i := by
    simp [List.length_take, Nat.min_eq_left hle]
  refine ⟨?_, ?_, ?_, ?_, ?_, ?_⟩
  · simp only [leafInsertAt, hf, Bool.false_eq_true, if_false, ← hi]
  · simp [List.length_take, List.length_drop]; omega
  · intro j hj
    rw [List.get?_append (by omega), List.get?_take (by omega)]
  · rw [List.get?_append_right (by omega), hlt, Nat.sub_self]
    rfl
  · intro j hj
    rw [List.get?_append_right (by omega), hlt]
    have : j + 1 - i = (j - i) + 1 := by omega
    rw [this]
    show (values.drop i).get? (j - i) = values.get? j
    rw [List.get?_drop]
    congr 1
    omega
  · intro e
    rw [List.count_append, List.count_cons]
    conv_rhs => rw [← List.take_append_drop i values, List.count_append]
    by_cases he : e = ⟨k, ts, 0, v⟩
    · subst he; simp; omega
    · have : ¬ ((⟨k, ts, 0, v⟩ : LeafValue) == e) = true := by
        simp [beq_iff_eq]
        exact fun hc => he hc.symm
      simp [this, he]

/-- Witness for C4 at a concrete input: inserting "b" between "a" and "c". -/
theorem leaf_insert_not_found_layout_witness :
    (leafIndexOf [⟨[97], 1, 0, [49]⟩, ⟨[99], 2, 0, [51]⟩] [98]).2 = false ∧
    ([(⟨[97], 1, 0, [49]⟩ : LeafValue), ⟨[99], 2, 0, [51]⟩].take 1 ++
      ⟨[98], 3, 0, [50]⟩ :: [(⟨[97], 1, 0, [49]⟩ : LeafValue), ⟨[99], 2, 0, [51]⟩].drop 1).get? 1
      = some ⟨[98], 3, 0, [50]⟩ :=
  ⟨by decide,
   (leaf_insert_not_found_layout [⟨[97], 1, 0, [49]⟩, ⟨[99], 2, 0, [51]⟩] 64 64
      [98] [50] 3 1 (by decide) (by decide)).2.2.2.1⟩

/-- The foldl computing updateTs is the maximum: it dominates every
element, and is either the seed or attained by some element. -/
theorem updateTs_foldl_max :
    ∀ (l : List LeafValue) (a : Nat),
      a ≤ l.foldl (fun c v => if c < v.ts then v.ts else c) a ∧
      (∀ e ∈ l, e.ts ≤ l.foldl (fun c v => if c < v.ts then v.ts else c) a) ∧
      (l.foldl (fun c v => if c < v.ts then v.ts else c) a = a ∨
        ∃ e ∈ l, l.foldl (fun c v => if c < v.ts then v.ts else c) a = e.ts)
  | [], a => by simp
  | e :: rest, a => by
    simp only [List.foldl_cons]
    by_cases hc : a < e.ts
    · rw [if_pos hc]
      have ih := updateTs_foldl_max rest e.ts
      refine ⟨?_, ?_, ?_⟩
      · have := ih.1; omega
      · intro e2 he2
        rcases List.mem_cons.mp he2 with he2 | he2
        · subst he2; exact ih.1
        · exact ih.2.1 e2 he2
      · rcases ih.2.2 with h | ⟨e2, he2, h⟩
        · exact Or.inr ⟨e, List.mem_cons_self e rest, h⟩
        · exact Or.inr ⟨e2, List.mem_cons.mpr (Or.inr he2), h⟩
    · rw [if_neg hc]
      have ih := updateTs_foldl_max rest a
      refine ⟨ih.1, ?_, ?_⟩
      · intro e2 he2
        rcases List.mem_cons.mp he2 with he2 | he2
        · subst he2
          have := ih.1
          omega
        · exact ih.2.1 e2 he2
      · rcases ih.2.2 with h | ⟨e2, he2, h⟩
        · exact Or.inl h
        · exact Or.inr ⟨e2, List.mem_cons.mpr (Or.inr he2), h⟩

/-- updateTsL is the maximum timestamp over the run (0 when empty). -/
theorem updateTsL_max (values : List LeafValue) :
    (∀ e ∈ values, e.ts ≤ updateTsL values) ∧
    (updateTsL values = 0 ∨ ∃ e ∈ values, updateTsL values = e.ts) := by
  have h := updateTs_foldl_max values 0
  exact ⟨h.2.1, h.2.2⟩

/-- Characterization of the splitInfo loop when the total size exceeds the
budget: it stops at the first position whose size would overflow the
accumulated size, which exists strictly inside the list. -/
theorem splitInfoGo_break (ms : Int) :
    ∀ (l : List Int) (i0 : Nat) (acc : Int), acc ≤ ms → ms < acc + l.sum →
    ∃ d : Nat, (splitInfoGo ms l i0 acc).1 = i0 + d ∧ d < l.length ∧
      (splitInfoGo ms l i0 acc).2 = acc + (l.take d).sum ∧
      ms < acc + (l.take d).sum + (l.get? d).getD 0 ∧
      (∀ j, j < d → acc + (l.take j).sum + (l.get? j).getD 0 ≤ ms)
  | [], i0, acc, hacc, h => by simp at h; omega
  | [s], i0, acc, hacc, h => by
    simp only [List.sum_cons, List.sum_nil] at h
    refine ⟨0, ?_⟩
    simp only [splitInfoGo]
    rw [if_pos (by omega)]
    simp
    omega
  | s :: s2 :: rest, i0, acc, hacc, h => by
    simp only [List.sum_cons] at h
    by_cases hbr : acc + s > ms
    · refine ⟨0, ?_⟩
      simp only [splitInfoGo]
      rw [if_pos hbr]
      simp
      omega
    · obtain ⟨d, h1, h2, h3, h4, h5⟩ :=
        splitInfoGo_break ms (s2 :: rest) (i0 + 1) (acc + s) (by omega)
          (by simp only [List.sum_cons]; omega)
      refine ⟨d + 1, ?_, ?_, ?_, ?_, ?_⟩
      · simp only [splitInfoGo]
        rw [if_neg hbr]
        omega
      · simpa using Nat.succ_lt_succ h2
      · simp only [splitInfoGo]
        rw [if_neg hbr, h3]
        simp [List.take_succ_cons]
        omega
      · simpa [List.take_succ_cons, add_assoc] using h4
      · intro j hj
        cases j with
        | zero => simp; omega
        | succ j2 =>
          have := h5 j2 (by omega)
          simpa [List.take_succ_cons, add_assoc] using this

/-- C7: with a size-coherent csize, a leaf splits exactly when csize
exceeds max_size; the split index is the smallest position whose entry
would push the cumulative size beyond max_size, the left leaf keeps the
entries below it, the right leaf gets the rest, and each side's cts is
the maximum timestamp over its own entries. -/
theorem leaf_split_spec (values : List LeafValue) (cts : Nat) (cs ms : Int)
    (si : Nat) (hms : 0 ≤ ms) (hcs : cs = sumSizes values)
    (hsi : si = (leafSplitInfo values ms).1) :
    (cs ≤ ms → leafSplit values cts cs ms = (.leaf values cts cs ms, none)) ∧
    (ms < cs →
      si < values.length ∧
      ms < sumSizes (values.take si) + sizeAt values si ∧
      (∀ j, j < si → sumSizes (values.take j) + sizeAt values j ≤ ms) ∧
      leafSplit values cts cs ms =
        (.leaf (values.take si) (updateTsL (values.take si))
           (sumSizes (values.take si)) ms,
         some (.leaf (values.drop si) (updateTsL (values.drop si))
           (cs - sumSizes (values.take si)) ms)) ∧
      (∀ e ∈ values.take si, e.ts ≤ updateTsL (values.take si)) ∧
      (updateTsL (values.take si) = 0 ∨
        ∃ e ∈ values.take si, updateTsL (values.take si) = e.ts) ∧
      (∀ e ∈ values.drop si, e.ts ≤ updateTsL (values.drop si)) ∧
      (updateTsL (values.drop si) = 0 ∨
        ∃ e ∈ values.drop si, updateTsL (values.drop si) = e.ts)) := by
  constructor
  · intro hle
    simp [leafSplit, hle]
  · intro hgt
    have hsum : ms < 0 + (values.map LeafValue.size).sum := by
      rw [hcs] at hgt
      simp only [sumSizes] at hgt
      omega
    obtain ⟨d, h1, h2, h3, h4, h5⟩ :=
      splitInfoGo_break ms (values.map LeafValue.size) 0 0 (by omega) hsum
    have hd : si = d := by
      rw [hsi]
      simpa [leafSplitInfo] using h1
    subst hd
    have htake : ∀ j : Nat, ((values.map LeafValue.size).take j).sum
        = sumSizes (values.take j) := by
      intro j
      simp [sumSizes, List.map_take]
    have hget : ∀ j : Nat, ((values.map LeafValue.size).get? j).getD 0
        = sizeAt values j := by
      intro j
      simp [sizeAt, List.get?_map]
    refine ⟨by simpa using h2, ?_, ?_, ?_, (updateTsL_max _).1, (updateTsL_max _).2,
      (updateTsL_max _).1, (updateTsL_max _).2⟩
    · have := h4
      rw [htake si, hget si] at this
      omega
    · intro j hj
      have := h5 j hj
      rw [htake j, hget j] at this
      omega
    · have heq : (leafSplitInfo values ms).2 = sumSizes (values.take si) := by
        rw [leafSplitInfo, h3]
        simpa using htake si
      simp only [leafSplit]
      rw [if_neg (by omega)]
      rw [heq, ← hsi]

/-- Witness for C7 at a concrete input: [17, 60, 47]-byte entries with
budget 64 split after the first entry. -/
theorem leaf_split_spec_witness :
    ((0 : Int) ≤ 64 ∧ (124 : Int) = sumSizes
      [⟨[97], 1, 0, []⟩, ⟨[98], 3, 0, List.replicate 43 121⟩,
       ⟨[99], 2, 0, List.replicate 30 120⟩]) ∧
    (1 : Nat) <
      [(⟨[97], 1, 0, []⟩ : LeafValue), ⟨[98], 3, 0, List.replicate 43 121⟩,
       ⟨[99], 2, 0, List.replicate 30 120⟩].length :=
  ⟨⟨by decide, by decide⟩,
   ((leaf_split_spec
      [⟨[97], 1, 0, []⟩, ⟨[98], 3, 0, List.replicate 43 121⟩,
       ⟨[99], 2, 0, List.replicate 30 120⟩] 3 124 64 1
      (by decide) (by decide) (by decide)).2 (by decide)).1⟩

/-- entriesSmallB by membership. -/
theorem entriesSmallB_iff (ms : Int) :
    ∀ values : List LeafValue,
      entriesSmallB ms values = true ↔ ∀ e ∈ values, e.size ≤ ms
  | [] => by simp [entriesSmallB]
  | e :: es => by simp [entriesSmallB, entriesSmallB_iff ms es]

/-- refsSmallB by membership. -/
theorem refsSmallB_iff (ms : Int) :
    ∀ refs : List ChildRef,
      refsSmallB ms refs = true ↔
        ∀ c ∈ refs, (c.1.length : Int) + 16 ≤ ms ∧ sizeSafeB ms c.2.2 = true
  | [] => by simp [refsSmallB]
  | c :: cs => by simp [refsSmallB, refsSmallB_iff ms cs]

/-- maxKey is defined on a non-empty leaf. -/
theorem maxKey_isSome_leaf (values : List LeafValue) (cts : Nat) (cs ms : Int)
    (h : values ≠ []) : (Node.leaf values cts cs ms).maxKey.isSome = true := by
  obtain ⟨a, ha⟩ := Option.isSome_iff_exists.mp (List.getLast?_isSome.mpr h)
  simp [Node.maxKey, ha]

/-- maxKey is defined on a non-empty inner node. -/
theorem maxKey_isSome_inner (refs : List ChildRef) (cts : Nat) (cs ms : Int)
    (h : refs ≠ []) : (Node.inner refs cts cs ms).maxKey.isSome = true := by
  obtain ⟨a, ha⟩ := Option.isSome_iff_exists.mp (List.getLast?_isSome.mpr h)
  simp [Node.maxKey, ha]

/-- A non-empty leaf of in-budget entries with maxSize ms is size-safe. -/
theorem sizeSafe_leaf_of (ms : Int) (values : List LeafValue) (cts : Nat) (cs : Int)
    (hne : values ≠ []) (hsm : entriesSmallB ms values = true) :
    sizeSafeB ms (Node.leaf values cts cs ms) = true := by
  simp [sizeSafeB, hsm, List.isEmpty_eq_false.mpr hne]

/-- A non-empty inner node of in-budget references with maxSize ms is
size-safe. -/
theorem sizeSafe_inner_of (ms : Int) (refs : List ChildRef) (cts : Nat) (cs : Int)
    (hne : refs ≠ []) (hsm : refsSmallB ms refs = true) :
    sizeSafeB ms (Node.inner refs cts cs ms) = true := by
  simp [sizeSafeB, hsm, List.isEmpty_eq_false.mpr hne]

/-- On a size-safe node, maxKey (when defined) fits the budget with the
16-byte overhead: leaf max keys come from entries, inner max keys from
child references. -/
theorem maxKey_small (ms : Int) (n : Node) (mk : Key) (hs : sizeSafeB ms n = true)
    (h : n.maxKey = some mk) : (mk.length : Int) + 16 ≤ ms := by
  cases n with
  | leaf values cts cs ms2 =>
    simp only [Node.maxKey, Option.map_eq_some'] at h
    obtain ⟨e, he, hek⟩ := h
    have hmem := List.mem_of_mem_getLast? he
    simp only [sizeSafeB, Bool.and_eq_true] at hs
    have hsz := (entriesSmallB_iff ms values).mp hs.2 e hmem
    simp only [LeafValue.size] at hsz
    rw [← hek]
    have hv : (0 : Int) ≤ e.value.length := by positivity
    omega
  | inner refs cts cs ms2 =>
    simp only [Node.maxKey, Option.map_eq_some'] at h
    obtain ⟨c, hc, hck⟩ := h
    have hmem := List.mem_of_mem_getLast? hc
    simp only [sizeSafeB, Bool.and_eq_true] at hs
    have := ((refsSmallB_iff ms refs).mp hs.2 c hmem).1
    rw [← hck]
    exact this

/-- The position scan of innerNode.indexOf stays within [start, start+len). -/
theorem innerIndexOfAux_range (k : Key) :
    ∀ (refs : List ChildRef) (i0 j : Nat),
      innerIndexOfAux refs k i0 = some j → i0 ≤ j ∧ j < i0 + refs.length
  | [], i0, j => by simp [innerIndexOfAux]
  | c :: rest, i0, j => by
    simp only [innerIndexOfAux]
    split
    · intro h
      cases Option.some.inj h
      simp
    · intro h
      have := innerIndexOfAux_range k rest (i0 + 1) j h
      simp only [List.length_cons]
      omega

/-- On a non-empty reference run, innerNode.indexOf is within [0, len). -/
theorem innerIndexOf_range (refs : List ChildRef) (k : Key) (h : refs ≠ []) :
    0 ≤ innerIndexOf refs k ∧ innerIndexOf refs k < (refs.length : Int) := by
  have hlen : 1 ≤ refs.length := List.length_pos.mpr h
  unfold innerIndexOf
  cases haux : innerIndexOfAux refs k 0 with
  | some j =>
    simp only [haux]
    have := innerIndexOfAux_range k refs 0 j haux
    omega
  | none =>
    simp only [haux]
    omega

/-- The splitInfo loop counter never goes below its start. -/
theorem splitInfoGo_fst_ge (ms : Int) :
    ∀ (l : List Int) (i0 : Nat) (acc : Int), i0 ≤ (splitInfoGo ms l i0 acc).1
  | [], i0, acc => Nat.le_refl i0
  | [s], i0, acc => by
    simp only [splitInfoGo]
    split <;> simp
  | s :: s2 :: rest, i0, acc => by
    simp only [splitInfoGo]
    split
    · simp
    · have := splitInfoGo_fst_ge ms (s2 :: rest) (i0 + 1) (acc + s)
      omega

/-- On a non-empty list the splitInfo index stays strictly inside it. -/
theorem splitInfoGo_fst_lt (ms : Int) :
    ∀ (l : List Int) (i0 : Nat) (acc : Int), l ≠ [] →
      (splitInfoGo ms l i0 acc).1 < i0 + l.length
  | [], i0, acc, h => absurd rfl h
  | [s], i0, acc, _ => by
    simp only [splitInfoGo]
    split <;> simp
  | s :: s2 :: rest, i0, acc, _ => by
    simp only [splitInfoGo]
    split
    · simp
    · have := splitInfoGo_fst_lt ms (s2 :: rest) (i0 + 1) (acc + s) (by simp)
      simp only [List.length_cons] at this ⊢
      omega

/-- When the first element fits the budget and there are at least two
elements, the splitInfo index is at least 1 (the retained half of a
split is then non-empty). -/
theorem splitInfoGo_fst_pos (ms s : Int) (rest : List Int)
    (hs : s ≤ ms) (hne : rest ≠ []) : 1 ≤ (splitInfoGo ms (s :: rest) 0 0).1 := by
  cases rest with
  | nil => exact absurd rfl hne
  | cons s2 r2 =>
    simp only [splitInfoGo]
    rw [if_neg (by omega)]
    simpa using splitInfoGo_fst_ge ms (s2 :: r2) (0 + 1) (0 + s)

/-- leafNode.split applied to a non-empty run of in-budget entries (of
at least two entries unless csize ≤ maxSize) yields size-safe non-empty
leaves. -/
theorem leafSplit_safe (values : List LeafValue) (cts : Nat) (cs ms : Int)
    (hsm : entriesSmallB ms values = true) (hne : values ≠ [])
    (hlen : 2 ≤ values.length ∨ cs ≤ ms) :
    sizeSafeB ms (leafSplit values cts cs ms).1 = true ∧
    ((leafSplit values cts cs ms).1).maxKey.isSome = true ∧
    ∀ n2, (leafSplit values cts cs ms).2 = some n2 →
      sizeSafeB ms n2 = true ∧ n2.maxKey.isSome = true := by
  by_cases hle : cs ≤ ms
  · simp only [leafSplit, if_pos hle]
    refine ⟨?_, maxKey_isSome_leaf values cts cs ms hne, by simp⟩
    simp [sizeSafeB, hsm, List.isEmpty_eq_false.mpr hne]
  · have h2 : 2 ≤ values.length := by
      rcases hlen with h | h
      · exact h
      · exact absurd h hle
    simp only [leafSplit, if_neg hle]
    have hlt : (leafSplitInfo values ms).1 < values.length := by
      have := splitInfoGo_fst_lt ms (values.map LeafValue.size) 0 0
        (by simpa using hne)
      simpa [leafSplitInfo] using this
    have hpos : 1 ≤ (leafSplitInfo values ms).1 := by
      cases values with
      | nil => simp at h2
      | cons e es =>
        cases es with
        | nil => simp at h2
        | cons e2 es2 =>
          have hsmall : e.size ≤ ms :=
            (entriesSmallB_iff ms _).mp hsm e (by simp)
          have := splitInfoGo_fst_pos ms e.size ((e2 :: es2).map LeafValue.size)
            hsmall (by simp)
          simpa [leafSplitInfo] using this
    have htne : values.take (leafSplitInfo values ms).1 ≠ [] := by
      apply List.ne_nil_of_length_pos
      rw [List.length_take]
      omega
    have hdne : values.drop (leafSplitInfo values ms).1 ≠ [] := by
      apply List.ne_nil_of_length_pos
      rw [List.length_drop]
      omega
    have htsm : entriesSmallB ms (values.take (leafSplitInfo values ms).1) = true :=
      (entriesSmallB_iff ms _).mpr
        (fun e he => (entriesSmallB_iff ms values).mp hsm e (List.take_subset _ _ he))
    have hdsm : entriesSmallB ms (values.drop (leafSplitInfo values ms).1) = true :=
      (entriesSmallB_iff ms _).mpr
        (fun e he => (entriesSmallB_iff ms values).mp hsm e (List.drop_subset _ _ he))
    refine ⟨?_, maxKey_isSome_leaf _ _ _ _ htne, ?_⟩
    · simp [sizeSafeB, htsm, List.isEmpty_eq_false.mpr htne]
    · intro n2 hn2
      rw [← Option.some.inj hn2]
      exact ⟨by simp [sizeSafeB, hdsm, List.isEmpty_eq_false.mpr hdne],
        maxKey_isSome_leaf _ _ _ _ hdne⟩

/-- innerNode.split applied to a non-empty run of in-budget references
(of at least two unless csize ≤ maxSize) yields size-safe non-empty
inner nodes. -/
theorem innerSplit_safe (refs : List ChildRef) (cts : Nat) (cs ms : Int)
    (hsm : refsSmallB ms refs = true) (hne : refs ≠ [])
    (hlen : 2 ≤ refs.length ∨ cs ≤ ms) :
    sizeSafeB ms (innerSplit refs cts cs ms).1 = true ∧
    ((innerSplit refs cts cs ms).1).maxKey.isSome = true ∧
    ∀ n2, (innerSplit refs cts cs ms).2 = some n2 →
      sizeSafeB ms n2 = true ∧ n2.maxKey.isSome = true := by
  by_cases hle : cs ≤ ms
  · simp only [innerSplit, if_pos hle]
    refine ⟨?_, maxKey_isSome_inner refs cts cs ms hne, by simp⟩
    simp [sizeSafeB, hsm, List.isEmpty_eq_false.mpr hne]
  · have h2 : 2 ≤ refs.length := by
      rcases hlen with h | h
      · exact h
      · exact absurd h hle
    simp only [innerSplit, if_neg hle]
    have hlt : (innerSplitInfo refs ms).1 < refs.length := by
      have := splitInfoGo_fst_lt ms (refs.map (fun c => (c.1.length : Int))) 0 0
        (by simpa using hne)
      simpa [innerSplitInfo] using this
    have hpos : 1 ≤ (innerSplitInfo refs ms).1 := by
      cases refs with
      | nil => simp at h2
      | cons c cs2 =>
        cases cs2 with
        | nil => simp at h2
        | cons c2 cs3 =>
          have hsmall : (c.1.length : Int) ≤ ms := by
            have := ((refsSmallB_iff ms _).mp hsm c (by simp)).1
            omega
          have := splitInfoGo_fst_pos ms (c.1.length : Int)
            ((c2 :: cs3).map (fun c => (c.1.length : Int))) hsmall (by simp)
          simpa [innerSplitInfo] using this
    have htne : refs.take (innerSplitInfo refs ms).1 ≠ [] := by
      apply List.ne_nil_of_length_pos
      rw [List.length_take]
      omega
    have hdne : refs.drop (innerSplitInfo refs ms).1 ≠ [] := by
      apply List.ne_nil_of_length_pos
      rw [List.length_drop]
      omega
    have htsm : refsSmallB ms (refs.take (innerSplitInfo refs ms).1) = true :=
      (refsSmallB_iff ms _).mpr
        (fun c hc => (refsSmallB_iff ms refs).mp hsm c (List.take_subset _ _ hc))
    have hdsm : refsSmallB ms (refs.drop (innerSplitInfo refs ms).1) = true :=
      (refsSmallB_iff ms _).mpr
        (fun c hc => (refsSmallB_iff ms refs).mp hsm c (List.drop_subset _ _ hc))
    refine ⟨?_, maxKey_isSome_inner _ _ _ _ htne, ?_⟩
    · simp [sizeSafeB, htsm, List.isEmpty_eq_false.mpr htne]
    · intro n2 hn2
      rw [← Option.some.inj hn2]
      exact ⟨by simp [sizeSafeB, hdsm, List.isEmpty_eq_false.mpr hdne],
        maxKey_isSome_inner _ _ _ _ hdne⟩

/-- leafNode.insertAt preserves size-safety and never yields an empty
node, provided the inserted entry fits the budget. -/
theorem leafInsertAt_safe (values : List LeafValue) (cs ms : Int) (k : Key)
    (v : Val) (ts : Nat)
    (hsm : entriesSmallB ms values = true) (h0 : values = [] → cs = 0)
    (hsz : 16 + (k.length : Int) + v.length ≤ ms) :
    sizeSafeB ms (leafInsertAt values cs ms k v ts).1 = true ∧
    ((leafInsertAt values cs ms k v ts).1).maxKey.isSome = true ∧
    ∀ n2, (leafInsertAt values cs ms k v ts).2 = some n2 →
      sizeSafeB ms n2 = true ∧ n2.maxKey.isSome = true := by
  have hszlv : (LeafValue.size ⟨k, ts, 0, v⟩) ≤ ms := by
    simp only [LeafValue.size]
    omega
  by_cases hf : (leafIndexOf values k).2 = true
  · have hvne : values ≠ [] := by
      intro h
      rw [h] at hf
      simp [leafIndexOf] at hf
    simp only [leafInsertAt, hf, if_true]
    refine ⟨?_, maxKey_isSome_leaf _ _ _ _ (by simp), by simp⟩
    apply sizeSafe_leaf_of _ _ _ _ (by simp)
    refine (entriesSmallB_iff ms _).mpr (fun e he => ?_)
    rcases List.mem_append.mp he with he | he
    · exact (entriesSmallB_iff ms values).mp hsm e (List.take_subset _ _ he)
    · rcases List.mem_cons.mp he with he | he
      · subst he
        simpa [LeafValue.size] using hszlv
      · exact (entriesSmallB_iff ms values).mp hsm e (List.drop_subset _ _ he)
  · simp only [leafInsertAt, hf, Bool.false_eq_true, if_false]
    have hnsm : entriesSmallB ms (values.take (leafIndexOf values k).1 ++
        (⟨k, ts, 0, v⟩ : LeafValue) :: values.drop (leafIndexOf values k).1) = true := by
      refine (entriesSmallB_iff ms _).mpr (fun e he => ?_)
      rcases List.mem_append.mp he with he | he
      · exact (entriesSmallB_iff ms values).mp hsm e (List.take_subset _ _ he)
      · rcases List.mem_cons.mp he with he | he
        · subst he
          exact hszlv
        · exact (entriesSmallB_iff ms values).mp hsm e (List.drop_subset _ _ he)
    apply leafSplit_safe _ _ _ _ hnsm (by simp)
    cases values with
    | nil =>
      right
      have := h0 rfl
      simp [this, leafIndexOf, LeafValue.size]
      omega
    | cons e es =>
      left
      have hle := leafIndexOf_fst_le k (e :: es)
      simp only [List.length_append, List.length_cons, List.length_take,
        List.length_drop]
      omega

mutual
/-- insertAt on a size-safe node with an in-budget entry completes without
a panic: it returns new size-safe node(s) on which maxKey is defined
(non-empty), so every maxKey call made by the callers succeeds. -/
theorem insert_safe : ∀ (n : Node) (ms : Int) (k : Key) (v : Val) (ts : Nat),
    sizeSafeB ms n = true → 16 + (k.length : Int) + v.length ≤ ms →
    ∃ r : Node × Option Node, n.insertAt k v ts = some (.ok r) ∧
      sizeSafeB ms r.1 = true ∧ r.1.maxKey.isSome = true ∧
      ∀ n2, r.2 = some n2 → sizeSafeB ms n2 = true ∧ n2.maxKey.isSome = true
  | .leaf values cts cs ms2, ms, k, v, ts, hsafe, hsz => by
    simp only [sizeSafeB, Bool.and_eq_true, Bool.or_eq_true, Bool.not_eq_true',
      decide_eq_true_eq] at hsafe
    obtain ⟨⟨hms2, h0⟩, hsm⟩ := hsafe
    subst hms2
    have h0' : values = [] → cs = 0 := by
      intro h
      rcases h0 with h0 | h0
      · rw [h] at h0
        simp at h0
      · exact h0
    have := leafInsertAt_safe values cs ms2 k v ts hsm h0' hsz
    exact ⟨leafInsertAt values cs ms2 k v ts, rfl, this.1, this.2.1, this.2.2⟩
  | .inner refs cts cs ms2, ms, k, v, ts, hsafe, hsz => by
    simp only [sizeSafeB, Bool.and_eq_true, Bool.not_eq_true',
      List.isEmpty_eq_false, decide_eq_true_eq] at hsafe
    obtain ⟨⟨hms2, hne⟩, hsm⟩ := hsafe
    subst hms2
    obtain ⟨hi0, hilt⟩ := innerIndexOf_range refs k hne
    obtain ⟨⟨newRefs, sp⟩, hp, hpsm0, hplen0⟩ :=
      childInsert_safe refs (innerIndexOf refs k) ms2 k v ts hsm hi0 hilt hsz
    have hpsm : refsSmallB ms2 newRefs = true := hpsm0
    have hplen : newRefs.length = refs.length + (if sp then 1 else 0) := hplen0
    have hp1ne : newRefs ≠ [] := by
      apply List.ne_nil_of_length_pos
      have := List.length_pos.mpr hne
      rw [hplen]
      omega
    cases sp with
    | false =>
      refine ⟨(.inner newRefs ts (updateSizeI newRefs) ms2, none), ?_, ?_, ?_, by simp⟩
      · simp only [Node.insertAt, hp]
      · exact sizeSafe_inner_of _ _ _ _ hp1ne hpsm
      · exact maxKey_isSome_inner _ _ _ _ hp1ne
    | true =>
      have h2 : 2 ≤ newRefs.length := by
        have := List.length_pos.mpr hne
        rw [hplen]
        simp
        omega
      have hspl := innerSplit_safe newRefs ts (updateSizeI newRefs) ms2 hpsm hp1ne
        (Or.inl h2)
      exact ⟨innerSplit newRefs ts (updateSizeI newRefs) ms2,
        by simp only [Node.insertAt, hp], hspl.1, hspl.2.1, hspl.2.2⟩

/-- childInsert at a position inside a run of in-budget references, with
an in-budget entry, completes without a panic and yields a run of
in-budget references whose length grows by one exactly when the child
split. -/
theorem childInsert_safe : ∀ (refs : List ChildRef) (i ms : Int) (k : Key) (v : Val)
    (ts : Nat), refsSmallB ms refs = true → 0 ≤ i → i < (refs.length : Int) →
    16 + (k.length : Int) + v.length ≤ ms →
    ∃ p : List ChildRef × Bool, childInsert refs i k v ts = some (.ok p) ∧
      refsSmallB ms p.1 = true ∧
      p.1.length = refs.length + (if p.2 then 1 else 0)
  | [], i, ms, k, v, ts, hsm, hi0, hilt, hsz => by simp at hilt; omega
  | c :: rest, i, ms, k, v, ts, hsm, hi0, hilt, hsz => by
    simp only [refsSmallB, Bool.and_eq_true, decide_eq_true_eq] at hsm
    obtain ⟨⟨hck, hcsafe⟩, hrest⟩ := hsm
    by_cases hieq : i = 0
    · subst hieq
      obtain ⟨⟨n1, n2o⟩, hr, hr1, hr1k, hr2⟩ := insert_safe c.2.2 ms k v ts hcsafe hsz
      obtain ⟨mk1, hmk1⟩ := Option.isSome_iff_exists.mp hr1k
      have hmk1b := maxKey_small ms n1 mk1 hr1 hmk1
      cases n2o with
      | none =>
        refine ⟨((mk1, n1.ts, n1) :: rest, false), ?_, ?_, by simp⟩
        · simp only [childInsert, hr]
          simp [hmk1]
        · simp only [refsSmallB, Bool.and_eq_true, decide_eq_true_eq]
          exact ⟨⟨hmk1b, hr1⟩, hrest⟩
      | some n2 =>
        obtain ⟨hn2safe, hn2k⟩ := hr2 n2 rfl
        obtain ⟨mk2, hmk2⟩ := Option.isSome_iff_exists.mp hn2k
        have hmk2b := maxKey_small ms n2 mk2 hn2safe hmk2
        refine ⟨((mk1, n1.ts, n1) :: (mk2, n2.ts, n2) :: rest, true), ?_, ?_, by simp⟩
        · simp only [childInsert, hr]
          simp [hmk1, hmk2]
        · simp only [refsSmallB, Bool.and_eq_true, decide_eq_true_eq]
          exact ⟨⟨hmk1b, hr1⟩, ⟨hmk2b, hn2safe⟩, hrest⟩
    · have hi1 : 0 ≤ i - 1 := by omega
      have hi1lt : i - 1 < (rest.length : Int) := by
        simp only [List.length_cons] at hilt
        push_cast at hilt ⊢
        omega
      obtain ⟨p, hp, hpsm, hplen⟩ :=
        childInsert_safe rest (i - 1) ms k v ts hrest hi1 hi1lt hsz
      refine ⟨(c :: p.1, p.2), ?_, ?_, ?_⟩
      · simp only [childInsert]
        rw [if_neg (by omega), if_neg hieq, hp]
      · simp only [refsSmallB, Bool.and_eq_true, decide_eq_true_eq]
        exact ⟨⟨hck, hcsafe⟩, hpsm⟩
      · simp only [List.length_cons, hplen]
        omega
end

/-- C10 counterexample: inserting a single entry of size 81 > 64 into a
fresh maxNodeSize-64 tree makes splitInfo return splitIndex 0, so the
split keeps an EMPTY left leaf and Insert then calls maxKey on it — an
out-of-bounds access (values[len-1] with len = 0); the modelled Insert
returns `none` (panic). -/
theorem oversized_entry_insert_panics :
    tree64.map (fun t => (t.insert (some [97]) (List.replicate 64 122) 1).isSome)
      = some false := by rfl

/-- C10 amended: on a size-safe tree (as produced by NewWith and preserved
below), Insert with a non-null key, ts > root.ts and an entry within the
max_node_size budget completes without any out-of-bounds access — every
maxKey call is on a non-empty node — returns no error, and preserves
size-safety; and a fresh NewWith tree is size-safe. -/
theorem insert_safe_within_budget :
    (∀ (t : TBtree) (k : Key) (v : Val) (ts : Nat),
      sizeSafeB t.maxNodeSize t.root = true →
      16 + (k.length : Int) + v.length ≤ t.maxNodeSize →
      t.closed = false → t.root.ts < ts →
      ∃ t2 : TBtree, t.insert (some k) v ts = some (t2, none) ∧
        t2.maxNodeSize = t.maxNodeSize ∧ sizeSafeB t2.maxNodeSize t2.root = true) ∧
    (∀ (ms : Int) (thr : Nat) (t0 : TBtree), newWith ms thr = .ok t0 →
      sizeSafeB t0.maxNodeSize t0.root = true) := by
  constructor
  · intro t k v ts hsafe hsz hopen hts
    obtain ⟨⟨n1, n2o⟩, hr, hr1, hr1k, hr2⟩ :=
      insert_safe t.root t.maxNodeSize k v ts hsafe hsz
    cases n2o with
    | none =>
      refine ⟨⟨n1, t.maxNodeSize, t.insertionCount + 1, t.insertionCountThreshold,
        t.lastFlushedTs, t.snapshots, t.maxSnapshotId, t.closed⟩, ?_, rfl, hr1⟩
      simp only [TBtree.insert]
      rw [if_neg (by simp [hopen]), if_neg (by omega), hr]
    | some n2 =>
      obtain ⟨mk1, hmk1⟩ := Option.isSome_iff_exists.mp hr1k
      obtain ⟨hn2safe, hn2k⟩ := hr2 n2 rfl
      obtain ⟨mk2, hmk2⟩ := Option.isSome_iff_exists.mp hn2k
      refine ⟨⟨.inner [(mk1, n1.ts, n1), (mk2, n2.ts, n2)] ts
        (updateSizeI [(mk1, n1.ts, n1), (mk2, n2.ts, n2)]) t.maxNodeSize,
        t.maxNodeSize, t.insertionCount + 1, t.insertionCountThreshold,
        t.lastFlushedTs, t.snapshots, t.maxSnapshotId, t.closed⟩, ?_, rfl, ?_⟩
      · simp only [TBtree.insert]
        rw [if_neg (by simp [hopen]), if_neg (by omega), hr]
        simp [hmk1, hmk2]
      · apply sizeSafe_inner_of _ _ _ _ (by simp)
        refine (refsSmallB_iff _ _).mpr (fun c hc => ?_)
        rcases List.mem_cons.mp hc with hc | hc
        · subst hc
          exact ⟨maxKey_small _ _ _ hr1 hmk1, hr1⟩
        · rcases List.mem_cons.mp hc with hc | hc
          · subst hc
            exact ⟨maxKey_small _ _ _ hn2safe hmk2, hn2safe⟩
          · simp at hc
  · intro ms thr t0 h
    unfold newWith at h
    split at h
    · exact absurd h (by simp)
    · rw [← Except.ok.inj h]
      simp [sizeSafeB, entriesSmallB]

/-- Witness for the amended C10 at a concrete input: a one-byte key and
one-byte value inserted into a fresh maxNodeSize-64 tree. -/
theorem insert_safe_within_budget_witness :
    ∃ t2 : TBtree, (⟨.leaf [] 0 0 64, 64, 0, 100000, 0, [], 0, false⟩ : TBtree).insert
        (some [97]) [49] 1 = some (t2, none) ∧
      t2.maxNodeSize = (⟨.leaf [] 0 0 64, 64, 0, 100000, 0, [], 0, false⟩ : TBtree).maxNodeSize ∧
      sizeSafeB t2.maxNodeSize t2.root = true :=
  insert_safe_within_budget.1 ⟨.leaf [] 0 0 64, 64, 0, 100000, 0, [], 0, false⟩
    [97] [49] 1 (by decide) (by decide) rfl (by decide)

/-- bytes.Compare of a byte string with itself is 0. -/
theorem bc_refl : ∀ a : List Nat, bytesCompare a a = 0
  | [] => rfl
  | x :: xs => by simp [bytesCompare, bc_refl xs]

/-- bytes.Compare is 0 exactly on equal byte strings. -/
theorem bc_eq_iff : ∀ a b : List Nat, bytesCompare a b = 0 ↔ a = b
  | [], [] => by simp [bytesCompare]
  | [], _ :: _ => by simp [bytesCompare]
  | _ :: _, [] => by simp [bytesCompare]
  | x :: xs, y :: ys => by
    simp only [bytesCompare]
    by_cases h1 : x < y
    · simp only [if_pos h1]
      constructor
      · intro h
        exact absurd h (by decide)
      · intro h
        injection h with h2 _
        omega
    · simp only [if_neg h1]
      by_cases h2 : y < x
      · simp only [if_pos h2]
        constructor
        · intro h
          exact absurd h (by decide)
        · intro h
          injection h with h3 _
          omega
      · simp only [if_neg h2]
        have hxy : x = y := by omega
        subst hxy
        rw [bc_eq_iff xs ys]
        simp

/-- bytes.Compare flips sign when its arguments swap. -/
theorem bc_flip : ∀ a b : List Nat, bytesCompare b a = -bytesCompare a b
  | [], [] => rfl
  | [], _ :: _ => rfl
  | _ :: _, [] => rfl
  | x :: xs, y :: ys => by
    simp only [bytesCompare]
    by_cases h1 : x < y <;> by_cases h2 : y < x
    · omega
    · simp [h1, h2]
    · simp [h1, h2]
    · simp [h1, h2, bc_flip xs ys]

/-- bytes.Compare takes only the values -1, 0, 1. -/
theorem bc_cases : ∀ a b : List Nat,
    bytesCompare a b = -1 ∨ bytesCompare a b = 0 ∨ bytesCompare a b = 1
  | [], [] => by simp [bytesCompare]
  | [], _ :: _ => by simp [bytesCompare]
  | _ :: _, [] => by simp [bytesCompare]
  | x :: xs, y :: ys => by
    simp only [bytesCompare]
    by_cases h1 : x < y
    · simp [h1]
    · by_cases h2 : y < x
      · simp [h1, h2]
      · simpa [h1, h2] using bc_cases xs ys

/-- The strict byte order is transitive. -/
theorem bc_trans : ∀ a b c : List Nat, bytesCompare a b = -1 →
    bytesCompare b c = -1 → bytesCompare a c = -1
  | [], [], _, h1, _ => by simp [bytesCompare] at h1
  | [], _ :: _, c, _, h2 => by
    cases c with
    | nil => simp [bytesCompare] at h2
    | cons c0 cs => rfl
  | _ :: _, [], _, h1, _ => by simp [bytesCompare] at h1
  | a0 :: as, b0 :: bs, c, h1, h2 => by
    cases c with
    | nil => simp [bytesCompare] at h2
    | cons c0 cs =>
      simp only [bytesCompare] at h1 h2 ⊢
      by_cases hab : a0 < b0
      · by_cases hbc : b0 < c0
        · rw [if_pos (by omega)]
        · by_cases hcb : c0 < b0
          · exfalso
            rw [if_neg hbc, if_pos hcb] at h2
            exact absurd h2 (by decide)
          · have hbce : b0 = c0 := by omega
            subst hbce
            rw [if_pos hab]
      · by_cases hba : b0 < a0
        · exfalso
          rw [if_neg hab, if_pos hba] at h1
          exact absurd h1 (by decide)
        · have habe : a0 = b0 := by omega
          subst habe
          rw [if_neg hab, if_neg hba] at h1
          by_cases hbc : a0 < c0
          · rw [if_pos hbc]
          · by_cases hcb : c0 < a0
            · exfalso
              rw [if_neg hbc, if_pos hcb] at h2
              exact absurd h2 (by decide)
            · have hbce : a0 = c0 := by omega
              subst hbce
              rw [if_neg hbc, if_neg hcb] at h2 ⊢
              exact bc_trans as bs cs h1 h2

/-- keyLt is transitive. -/
theorem keyLt_trans {a b c : Key} (h1 : keyLt a b) (h2 : keyLt b c) : keyLt a c :=
  bc_trans a b c h1 h2

/-- keyLt is irreflexive. -/
theorem keyLt_irrefl (a : Key) : ¬ keyLt a a := by
  simp [keyLt, bc_refl]

/-- bytes.Compare a b = 1 exactly when b is strictly below a. -/
theorem bc_one_iff (a b : Key) : bytesCompare a b = 1 ↔ keyLt b a := by
  unfold keyLt
  rw [bc_flip b a]
  omega

/-- Key trichotomy. -/
theorem keyLt_trichotomy (a b : Key) : keyLt a b ∨ a = b ∨ keyLt b a := by
  rcases bc_cases a b with h | h | h
  · exact Or.inl h
  · exact Or.inr (Or.inl ((bc_eq_iff a b).mp h))
  · exact Or.inr (Or.inr ((bc_one_iff a b).mp h))

/-- keyLt keys are different. -/
theorem keyLt_ne {a b : Key} (h : keyLt a b) : a ≠ b := by
  intro he
  subst he
  exact keyLt_irrefl a h

/-- The spec-side insertion never empties the run. -/
theorem insEntries_ne_nil (k : Key) (v : Val) (ts : Nat) :
    ∀ es, insEntries es k v ts ≠ []
  | [] => by simp [insEntries]
  | e :: rest => by
    simp only [insEntries]
    split
    · simp
    · split <;> simp

/-- Keys below k pass the insertion scan through unchanged. -/
theorem insEntries_append_left (k : Key) (v : Val) (ts : Nat) :
    ∀ (A B : List LeafValue), (∀ e ∈ A, keyLt e.key k) →
      insEntries (A ++ B) k v ts = A ++ insEntries B k v ts
  | [], B, _ => by simp
  | e :: A2, B, h => by
    have he := h e (by simp)
    have hne : ¬ e.key = k := keyLt_ne he
    have hnot1 : ¬ bytesCompare e.key k = 1 := by
      rw [bc_one_iff]
      intro hlt
      exact keyLt_irrefl _ (keyLt_trans he hlt)
    simp only [List.cons_append, insEntries, if_neg hne, if_neg hnot1]
    exact congrArg (List.cons e)
      (insEntries_append_left k v ts A2 B (fun e2 he2 => h e2 (by simp [he2])))

/-- The insertion scan stops inside a run whose last key is not below k. -/
theorem insEntries_append_right (k : Key) (v : Val) (ts : Nat) :
    ∀ (B C : List LeafValue) (lk : Key),
      (keysOf B).getLast? = some lk → ¬ keyLt lk k →
      insEntries (B ++ C) k v ts = insEntries B k v ts ++ C
  | [], _, lk, hl, _ => by simp [keysOf] at hl
  | e :: B2, C, lk, hl, hlt => by
    simp only [List.cons_append, insEntries]
    by_cases h1 : e.key = k
    · simp [h1]
    · by_cases h2 : bytesCompare e.key k = 1
      · simp [h1, h2]
      · simp only [if_neg h1, if_neg h2]
        cases B2 with
        | nil =>
          exfalso
          simp only [keysOf, List.map_cons, List.map_nil,
            List.getLast?_singleton, Option.some.injEq] at hl
          rcases keyLt_trichotomy e.key k with h3 | h3 | h3
          · exact hlt (hl ▸ h3)
          · exact h1 h3
          · exact h2 ((bc_one_iff _ _).mpr h3)
        | cons b2 B3 =>
          have hl2 : (keysOf (b2 :: B3)).getLast? = some lk := by
            simpa [keysOf, List.getLast?_cons_cons] using hl
          exact congrArg (List.cons e)
            (insEntries_append_right k v ts (b2 :: B3) C lk hl2 hlt)

/-- Every key of the run after insertion is an old key or the new one. -/
theorem insEntries_keys_sub (k : Key) (v : Val) (ts : Nat) :
    ∀ es, ∀ k2 ∈ keysOf (insEntries es k v ts), k2 ∈ keysOf es ∨ k2 = k
  | [] => by simp [insEntries, keysOf]
  | e :: rest => by
    simp only [insEntries]
    split
    · intro k2 hk2
      simp only [keysOf, List.map_cons, List.mem_cons] at hk2 ⊢
      rcases hk2 with h | h
      · exact Or.inr h
      · exact Or.inl (Or.inr h)
    · split
      · intro k2 hk2
        simp only [keysOf, List.map_cons, List.mem_cons] at hk2 ⊢
        rcases hk2 with h | h
        · exact Or.inr h
        · exact Or.inl h
      · intro k2 hk2
        simp only [keysOf, List.map_cons, List.mem_cons] at hk2 ⊢
        rcases hk2 with h | h
        · exact Or.inl (Or.inl h)
        · rcases insEntries_keys_sub k v ts rest k2 h with h2 | h2
          · exact Or.inl (Or.inr h2)
          · exact Or.inr h2

/-- Insertion keeps the keys strictly ascending. -/
theorem insEntries_sorted (k : Key) (v : Val) (ts : Nat) :
    ∀ es, List.Pairwise keyLt (keysOf es) →
      List.Pairwise keyLt (keysOf (insEntries es k v ts))
  | [], _ => by simp [insEntries, keysOf]
  | e :: rest, hp => by
    simp only [keysOf, List.map_cons, List.pairwise_cons] at hp
    obtain ⟨hhead, htail⟩ := hp
    simp only [insEntries]
    by_cases h1 : e.key = k
    · simp only [if_pos h1, keysOf, List.map_cons, List.pairwise_cons]
      exact ⟨fun b hb => h1 ▸ hhead b hb, htail⟩
    · by_cases h2 : bytesCompare e.key k = 1
      · have hk : keyLt k e.key := (bc_one_iff _ _).mp h2
        simp only [if_neg h1, if_pos h2, keysOf, List.map_cons, List.pairwise_cons]
        refine ⟨?_, hhead, htail⟩
        intro b hb
        rcases List.mem_cons.mp hb with hb | hb
        · rw [hb]
          exact hk
        · exact keyLt_trans hk (hhead b hb)
      · have hek : keyLt e.key k := by
          rcases keyLt_trichotomy e.key k with h | h | h
          · exact h
          · exact absurd h h1
          · exact absurd ((bc_one_iff _ _).mpr h) h2
        simp only [if_neg h1, if_neg h2, keysOf, List.map_cons, List.pairwise_cons]
        constructor
        · intro b hb
          rcases insEntries_keys_sub k v ts rest b hb with h | h
          · exact hhead b h
          · rw [h]
            exact hek
        · exact insEntries_sorted k v ts rest htail

/-- A run contains no entry for k exactly when findEntry misses. -/
theorem findEntry_eq_none_iff (es : List LeafValue) (k : Key) :
    findEntry es k = none ↔ ∀ e ∈ es, ¬ e.key = k := by
  unfold findEntry
  rw [List.find?_eq_none]
  simp

/-- findEntry over a concatenation whose left part misses. -/
theorem findEntry_append_none {A : List LeafValue} {k : Key}
    (h : findEntry A k = none) (B : List LeafValue) :
    findEntry (A ++ B) k = findEntry B k := by
  unfold findEntry at h ⊢
  rw [List.find?_append, h]
  rfl

/-- findEntry over a concatenation whose left part hits. -/
theorem findEntry_append_some {A : List LeafValue} {k : Key} {e : LeafValue}
    (h : findEntry A k = some e) (B : List LeafValue) :
    findEntry (A ++ B) k = some e := by
  unfold findEntry at h ⊢
  rw [List.find?_append, h]
  rfl

/-- findEntry skips a head entry with a different key. -/
theorem findEntry_cons_skip {e : LeafValue} {k : Key} (h : ¬ e.key = k)
    (es : List LeafValue) : findEntry (e :: es) k = findEntry es k := by
  unfold findEntry
  rw [List.find?_cons_of_neg]
  simpa using h

/-- findEntry stops at a head entry with the searched key. -/
theorem findEntry_cons_self {e : LeafValue} {k : Key} (h : e.key = k)
    (es : List LeafValue) : findEntry (e :: es) k = some e := by
  unfold findEntry
  rw [List.find?_cons_of_pos]
  simpa using h

/-- After insertion, findEntry at the inserted key returns the new entry,
whose prevTs is the ts the key held before (0 if absent) — on a
strictly-ascending run. -/
theorem findEntry_insEntries_self (k : Key) (v : Val) (ts : Nat) :
    ∀ es, List.Pairwise keyLt (keysOf es) →
      findEntry (insEntries es k v ts) k =
        some ⟨k, ts, (match findEntry es k with | some e => e.ts | none => 0), v⟩
  | [], _ => by simp [insEntries, findEntry]
  | e :: rest, hp => by
    simp only [keysOf, List.map_cons, List.pairwise_cons] at hp
    obtain ⟨hhead, htail⟩ := hp
    simp only [insEntries]
    by_cases h1 : e.key = k
    · simp only [if_pos h1]
      rw [findEntry_cons_self rfl, findEntry_cons_self h1]
    · by_cases h2 : bytesCompare e.key k = 1
      · have hrest : findEntry rest k = none := by
          rw [findEntry_eq_none_iff]
          intro e2 he2 hcontra
          have := hhead e2.key (List.mem_map_of_mem LeafValue.key he2)
          rw [hcontra] at this
          exact keyLt_irrefl _ (keyLt_trans ((bc_one_iff _ _).mp h2) this)
        simp only [if_neg h1, if_pos h2]
        rw [findEntry_cons_self rfl, findEntry_cons_skip h1, hrest]
      · simp only [if_neg h1, if_neg h2]
        rw [findEntry_cons_skip h1, findEntry_cons_skip h1]
        exact findEntry_insEntries_self k v ts rest htail

/-- findEntry at any other key is untouched by the insertion. -/
theorem findEntry_insEntries_other (k : Key) (v : Val) (ts : Nat) (k2 : Key)
    (hne : ¬ k2 = k) :
    ∀ es, findEntry (insEntries es k v ts) k2 = findEntry es k2
  | [] => by
    rw [show insEntries [] k v ts = [⟨k, ts, 0, v⟩] from rfl,
      findEntry_cons_skip (fun h => hne h.symm)]
  | e :: rest => by
    simp only [insEntries]
    by_cases h1 : e.key = k
    · simp only [if_pos h1]
      rw [findEntry_cons_skip (fun h => hne h.symm),
        findEntry_cons_skip (show ¬ e.key = k2 by rw [h1]; exact fun h => hne h.symm)]
    · by_cases h2 : bytesCompare e.key k = 1
      · simp only [if_neg h1, if_pos h2]
        rw [findEntry_cons_skip (fun h => hne h.symm)]
      · simp only [if_neg h1, if_neg h2]
        by_cases h3 : e.key = k2
        · rw [findEntry_cons_self h3, findEntry_cons_self h3]
        · rw [findEntry_cons_skip h3, findEntry_cons_skip h3]
          exact findEntry_insEntries_other k v ts k2 hne rest

/-- Flattened entries of a concatenation of reference runs. -/
theorem entriesL_append : ∀ a b : List ChildRef,
    entriesL (a ++ b) = entriesL a ++ entriesL b
  | [], b => by simp [entriesL]
  | c :: a2, b => by simp [entriesL, entriesL_append a2 b]

/-- leafNode.split leaves the in-order entry run intact. -/
theorem leafSplit_entries (vs : List LeafValue) (cts : Nat) (cs ms : Int) :
    entriesPair (leafSplit vs cts cs ms) = vs := by
  unfold leafSplit entriesPair
  split
  · simp [Node.entries]
  · simp [Node.entries]

/-- innerNode.split leaves the flattened entry run intact. -/
theorem innerSplit_entries (refs : List ChildRef) (cts : Nat) (cs ms : Int) :
    entriesPair (innerSplit refs cts cs ms) = entriesL refs := by
  unfold innerSplit entriesPair
  split
  · simp [Node.entries]
  · simp only [Node.entries]
    rw [← entriesL_append, List.take_append_drop]

/-- On a not-found scan, the rebuilt run is the spec-side insertion. -/
theorem scan_insert_notfound (k : Key) (v : Val) (ts : Nat) :
    ∀ es, (leafIndexOf es k).2 = false →
      es.take (leafIndexOf es k).1 ++
        (⟨k, ts, 0, v⟩ : LeafValue) :: es.drop (leafIndexOf es k).1
        = insEntries es k v ts
  | [], _ => by simp [leafIndexOf, insEntries]
  | e :: rest, hf => by
    simp only [leafIndexOf] at hf ⊢
    by_cases h1 : e.key = k
    · rw [if_pos h1] at hf
      simp at hf
    · by_cases h2 : bytesCompare e.key k = 1
      · simp only [if_neg h1, if_pos h2] at hf ⊢
        simp [insEntries, h1, h2]
      · simp only [if_neg h1, if_neg h2] at hf ⊢
        simp only [List.take_succ_cons, List.drop_succ_cons, List.cons_append] at hf ⊢
        rw [insEntries, if_neg h1, if_neg h2]
        exact congrArg (List.cons e) (scan_insert_notfound k v ts rest hf)

/-- On a found scan, the rebuilt run (prevTs taken from the replaced
entry) is the spec-side insertion. -/
theorem scan_insert_found (k : Key) (v : Val) (ts : Nat) :
    ∀ es, (leafIndexOf es k).2 = true →
      es.take (leafIndexOf es k).1 ++
        (⟨k, ts, (match es.get? (leafIndexOf es k).1 with
                  | some old => old.ts | none => 0), v⟩ : LeafValue) ::
        es.drop ((leafIndexOf es k).1 + 1)
        = insEntries es k v ts
  | [], hf => by simp [leafIndexOf] at hf
  | e :: rest, hf => by
    simp only [leafIndexOf] at hf ⊢
    by_cases h1 : e.key = k
    · simp only [if_pos h1] at hf ⊢
      simp [insEntries, h1]
    · by_cases h2 : bytesCompare e.key k = 1
      · simp only [if_neg h1, if_pos h2] at hf
        simp at hf
      · simp only [if_neg h1, if_neg h2] at hf ⊢
        simp only [List.take_succ_cons, List.drop_succ_cons, List.cons_append,
          List.get?_cons_succ] at hf ⊢
        rw [insEntries, if_neg h1, if_neg h2]
        exact congrArg (List.cons e) (scan_insert_found k v ts rest hf)

/-- leafNode.insertAt realizes the spec-side insertion on the in-order
run of entries. -/
theorem leafInsertAt_entries (es : List LeafValue) (cs ms : Int) (k : Key)
    (v : Val) (ts : Nat) :
    entriesPair (leafInsertAt es cs ms k v ts) = insEntries es k v ts := by
  by_cases hf : (leafIndexOf es k).2 = true
  · simp only [leafInsertAt, hf, if_true]
    show (es.take (leafIndexOf es k).1 ++ _ :: es.drop ((leafIndexOf es k).1 + 1))
      ++ [] = _
    rw [List.append_nil]
    exact scan_insert_found k v ts es hf
  · simp only [leafInsertAt, hf, Bool.false_eq_true, if_false]
    rw [leafSplit_entries]
    exact scan_insert_notfound k v ts es (by simpa using hf)

/-- A leaf's maxKey is the last of its keys. -/
theorem leaf_maxKey_keys (vs : List LeafValue) (cts : Nat) (cs ms : Int) :
    (Node.leaf vs cts cs ms).maxKey = (keysOf vs).getLast? := by
  simp [Node.maxKey, keysOf, List.getLast?_map]

/-- The flattened entries of any well-formed node have strictly
ascending keys. -/
theorem wf_sorted (m : Node) (h : wfB m = true) :
    List.Pairwise keyLt (keysOf m.entries) := by
  cases m with
  | leaf vs cts cs ms =>
    simp only [wfB, decide_eq_true_eq] at h
    simpa [Node.entries] using h
  | inner refs cts cs ms =>
    simp only [wfB, Bool.and_eq_true, decide_eq_true_eq] at h
    simpa [Node.entries] using h.2

/-- wfRefsB by membership. -/
theorem wfRefsB_iff : ∀ refs : List ChildRef,
    wfRefsB refs = true ↔
      ∀ c ∈ refs, wfB c.2.2 = true ∧ Node.entries c.2.2 ≠ [] ∧
        c.2.2.maxKey = some c.1
  | [] => by simp [wfRefsB]
  | c :: cs => by
    simp [wfRefsB, wfRefsB_iff cs, List.isEmpty_eq_false, and_assoc]

/-- The flattened entries of a non-empty well-formed reference run are
non-empty. -/
theorem entriesL_ne_nil : ∀ refs : List ChildRef, wfRefsB refs = true →
    refs ≠ [] → entriesL refs ≠ []
  | [], _, hne => absurd rfl hne
  | c :: cs, hwf, _ => by
    have := ((wfRefsB_iff (c :: cs)).mp hwf c (by simp)).2.1
    simp only [entriesL]
    intro hcontra
    rw [List.append_eq_nil] at hcontra
    exact this hcontra.1

mutual
/-- On a well-formed non-empty node, maxKey is the last key of the
flattened entry run. -/
theorem maxKey_entries_last : ∀ m : Node, wfB m = true → m.entries ≠ [] →
    m.maxKey = (keysOf m.entries).getLast?
  | .leaf vs cts cs ms, _, _ => leaf_maxKey_keys vs cts cs ms
  | .inner refs cts cs ms, hwf, _ => by
    simp only [wfB, Bool.and_eq_true, Bool.not_eq_true', List.isEmpty_eq_false,
      decide_eq_true_eq] at hwf
    obtain ⟨⟨hne, hrefs⟩, _⟩ := hwf
    show (Node.inner refs cts cs ms).maxKey = (keysOf (entriesL refs)).getLast?
    rw [entriesL_last refs hrefs hne]
    simp [Node.maxKey]

/-- The last key of a flattened well-formed reference run is the last
reference's key. -/
theorem entriesL_last : ∀ refs : List ChildRef, wfRefsB refs = true →
    refs ≠ [] →
      (keysOf (entriesL refs)).getLast? = refs.getLast?.map Prod.fst
  | [], _, hne => absurd rfl hne
  | [c], hwf, _ => by
    obtain ⟨hcw, hcne, hck⟩ := (wfRefsB_iff [c]).mp hwf c (by simp)
    have := maxKey_entries_last c.2.2 hcw hcne
    simp only [entriesL, List.append_nil]
    rw [← this, hck]
    rfl
  | c :: c2 :: cs, hwf, _ => by
    have hwf2 : wfRefsB (c2 :: cs) = true := by
      rw [wfRefsB_iff]
      intro c' hc'
      exact (wfRefsB_iff (c :: c2 :: cs)).mp hwf c' (by simp [hc'])
    have ih := entriesL_last (c2 :: cs) hwf2 (by simp)
    have hne2 : entriesL (c2 :: cs) ≠ [] := entriesL_ne_nil _ hwf2 (by simp)
    show (keysOf (Node.entries c.2.2 ++ entriesL (c2 :: cs))).getLast? = _
    rw [keysOf, List.map_append, List.getLast?_append]
    have : (List.map LeafValue.key (entriesL (c2 :: cs))).getLast?
        = (c2 :: cs).getLast?.map Prod.fst := ih
    rw [this]
    have hlast : ∃ cl, (c2 :: cs).getLast? = some cl := by
      cases h : (c2 :: cs).getLast? with
      | none =>
        rw [List.getLast?_eq_none_iff] at h
        simp at h
      | some cl => exact ⟨cl, rfl⟩
    obtain ⟨cl, hcl⟩ := hlast
    rw [hcl]
    simp [List.getLast?_cons_cons, hcl]
end

/-- In a strictly ascending key run, every key is the last one or below
it. -/
theorem sorted_le_last : ∀ (ks : List Key) (lk : Key), List.Pairwise keyLt ks →
    ks.getLast? = some lk → ∀ x ∈ ks, x = lk ∨ keyLt x lk
  | [], lk, _, hl => by simp at hl
  | [a], lk, _, hl => by
    simp only [List.getLast?_singleton, Option.some.injEq] at hl
    intro x hx
    simp only [List.mem_singleton] at hx
    exact Or.inl (hx.trans hl)
  | a :: b :: ks, lk, hp, hl => by
    rw [List.getLast?_cons_cons] at hl
    rw [List.pairwise_cons] at hp
    intro x hx
    rcases List.mem_cons.mp hx with hx | hx
    · subst hx
      exact Or.inr (hp.1 lk (List.mem_of_mem_getLast? hl))
    · exact sorted_le_last (b :: ks) lk hp.2 hl x hx

/-- The scan of innerNode.indexOf decomposes the run: all earlier keys
are strictly below k and the found key is ≥ k; when the scan misses, k
is above every key. -/
theorem innerIndexOfAux_decomp (k : Key) :
    ∀ (refs : List ChildRef) (i0 : Nat),
      (∀ j, innerIndexOfAux refs k i0 = some j →
        ∃ pre c post, refs = pre ++ c :: post ∧ i0 + pre.length = j ∧
          (∀ c' ∈ pre, bytesCompare k c'.1 = 1) ∧ bytesCompare k c.1 < 1) ∧
      (innerIndexOfAux refs k i0 = none → ∀ c' ∈ refs, bytesCompare k c'.1 = 1)
  | [], i0 =>
    ⟨fun j h => by simp [innerIndexOfAux] at h,
     fun _ c' hc' => absurd hc' (by simp)⟩
  | c :: rest, i0 => by
    constructor
    · intro j h
      simp only [innerIndexOfAux] at h
      split at h
      · rename_i hcond
        cases Option.some.inj h
        exact ⟨[], c, rest, by simp, by simp, by simp, hcond⟩
      · rename_i hcond
        obtain ⟨pre, c2, post, hdec, hlen, hpre, hc2⟩ :=
          (innerIndexOfAux_decomp k rest (i0 + 1)).1 j h
        refine ⟨c :: pre, c2, post, by simp [hdec], ?_, ?_, hc2⟩
        · simp only [List.length_cons]
          omega
        · intro c' hc'
          rcases List.mem_cons.mp hc' with hc' | hc'
          · subst hc'
            rcases bc_cases k c'.1 with h3 | h3 | h3
            · omega
            · omega
            · exact h3
          · exact hpre c' hc'
    · intro h c' hc'
      simp only [innerIndexOfAux] at h
      split at h
      · exact absurd h (by simp)
      · rename_i hcond
        rcases List.mem_cons.mp hc' with hc'2 | hc'2
        · subst hc'2
          rcases bc_cases k c'.1 with h3 | h3 | h3
          · omega
          · omega
          · exact h3
        · exact (innerIndexOfAux_decomp k rest (i0 + 1)).2 h c' hc'2

/-- innerNode.indexOf decomposes a non-empty run around the chosen
position: earlier keys below k, and either the chosen key is ≥ k or the
position is the last one with k above every key. -/
theorem innerIndexOf_decomp (refs : List ChildRef) (k : Key) (hne : refs ≠ []) :
    ∃ pre c post, refs = pre ++ c :: post ∧
      (pre.length : Int) = innerIndexOf refs k ∧
      (∀ c' ∈ pre, bytesCompare k c'.1 = 1) ∧
      (bytesCompare k c.1 < 1 ∨ (post = [] ∧ bytesCompare k c.1 = 1)) := by
  cases haux : innerIndexOfAux refs k 0 with
  | some j =>
    obtain ⟨pre, c, post, hdec, hlen, hpre, hc⟩ :=
      (innerIndexOfAux_decomp k refs 0).1 j haux
    have hio : innerIndexOf refs k = (j : Int) := by
      unfold innerIndexOf
      rw [haux]
    refine ⟨pre, c, post, hdec, ?_, hpre, Or.inl hc⟩
    rw [hio]
    omega
  | none =>
    have hall := (innerIndexOfAux_decomp k refs 0).2 haux
    have hio : innerIndexOf refs k = (refs.length : Int) - 1 := by
      unfold innerIndexOf
      rw [haux]
    have hl : refs.dropLast ++ [refs.getLast hne] = refs :=
      List.dropLast_append_getLast hne
    refine ⟨refs.dropLast, refs.getLast hne, [], hl.symm, ?_, ?_, Or.inr ⟨rfl, ?_⟩⟩
    · rw [hio, List.length_dropLast]
      have : 1 ≤ refs.length := List.length_pos.mpr hne
      omega
    · intro c' hc'
      refine hall c' ?_
      rw [← hl]
      exact List.mem_append.mpr (Or.inl hc')
    · exact hall _ (List.getLast_mem hne)

/-- findEntry misses when every key is above k. -/
theorem findEntry_none_of_keys_above (es : List LeafValue) (k : Key)
    (h : ∀ e ∈ es, keyLt k e.key) : findEntry es k = none := by
  rw [findEntry_eq_none_iff]
  intro e he hc
  exact keyLt_ne (h e he) hc.symm

/-- findEntry misses when every key is below k. -/
theorem findEntry_none_of_keys_below (es : List LeafValue) (k : Key)
    (h : ∀ e ∈ es, keyLt e.key k) : findEntry es k = none := by
  rw [findEntry_eq_none_iff]
  intro e he hc
  exact keyLt_ne (h e he) hc

/-- All entries of a properly referenced child subtree have keys below k
whenever k is above the reference key. -/
theorem seg_keys_below (c0 : ChildRef) (hw : wfB c0.2.2 = true)
    (hne : Node.entries c0.2.2 ≠ []) (hmx : c0.2.2.maxKey = some c0.1)
    (k : Key) (hk : bytesCompare k c0.1 = 1) :
    ∀ e ∈ Node.entries c0.2.2, keyLt e.key k := by
  intro e he
  have hlast : (keysOf (Node.entries c0.2.2)).getLast? = some c0.1 := by
    rw [← maxKey_entries_last _ hw hne]
    exact hmx
  have hs := wf_sorted _ hw
  rcases sorted_le_last _ _ hs hlast e.key (List.mem_map_of_mem _ he) with h | h
  · rw [h]
    exact (bc_one_iff _ _).mp hk
  · exact keyLt_trans h ((bc_one_iff _ _).mp hk)

/-- When k is not above the head reference key, every entry in the
remaining subtrees has a key above k. -/
theorem rest_keys_above (c0 : ChildRef) (rest : List ChildRef)
    (hsorted : List.Pairwise keyLt (keysOf (entriesL (c0 :: rest))))
    (hc0last : (keysOf (Node.entries c0.2.2)).getLast? = some c0.1)
    (k : Key) (hk : ¬ bytesCompare k c0.1 = 1) :
    ∀ e ∈ entriesL rest, keyLt k e.key := by
  intro e he
  have hsplit : List.Pairwise keyLt
      (keysOf (Node.entries c0.2.2) ++ keysOf (entriesL rest)) := by
    have : keysOf (entriesL (c0 :: rest))
        = keysOf (Node.entries c0.2.2) ++ keysOf (entriesL rest) := by
      simp [entriesL, keysOf]
    rw [← this]
    exact hsorted
  have hcross : keyLt c0.1 e.key :=
    (List.pairwise_append.mp hsplit).2.2 c0.1 (List.mem_of_mem_getLast? hc0last)
      e.key (List.mem_map_of_mem _ he)
  rcases bc_cases k c0.1 with h | h | h
  · exact keyLt_trans h hcross
  · rw [(bc_eq_iff _ _).mp h]
    exact hcross
  · exact absurd h hk

/-- On a strictly ascending run, the leaf scan agrees with findEntry:
a found scan returns the found entry's position and a failed scan means
the key is absent. -/
theorem leafIndexOf_find (k : Key) :
    ∀ es : List LeafValue, List.Pairwise keyLt (keysOf es) →
      ((leafIndexOf es k).2 = true →
        ∃ e, es.get? (leafIndexOf es k).1 = some e ∧ findEntry es k = some e) ∧
      ((leafIndexOf es k).2 = false → findEntry es k = none)
  | [], _ => ⟨by simp [leafIndexOf], fun _ => by simp [findEntry]⟩
  | e :: rest, hp => by
    simp only [keysOf, List.map_cons, List.pairwise_cons] at hp
    obtain ⟨hhead, htail⟩ := hp
    constructor
    · intro hf
      simp only [leafIndexOf] at hf ⊢
      by_cases h1 : e.key = k
      · simp only [if_pos h1]
        exact ⟨e, by simp, findEntry_cons_self h1 rest⟩
      · by_cases h2 : bytesCompare e.key k = 1
        · simp only [if_neg h1, if_pos h2] at hf
          simp at hf
        · simp only [if_neg h1, if_neg h2] at hf ⊢
          obtain ⟨e2, hget, hfind⟩ := (leafIndexOf_find k rest htail).1 hf
          exact ⟨e2, by simpa [List.get?_cons_succ] using hget,
            by rw [findEntry_cons_skip h1]; exact hfind⟩
    · intro hf
      simp only [leafIndexOf] at hf
      by_cases h1 : e.key = k
      · simp [if_pos h1] at hf
      · by_cases h2 : bytesCompare e.key k = 1
        · rw [findEntry_eq_none_iff]
          intro e2 he2 hc
          rcases List.mem_cons.mp he2 with he2 | he2
          · subst he2
            exact h1 hc
          · have := hhead e2.key (List.mem_map_of_mem LeafValue.key he2)
            rw [hc] at this
            exact keyLt_irrefl _ (keyLt_trans ((bc_one_iff _ _).mp h2) this)
        · simp only [if_neg h1, if_neg h2] at hf
          rw [findEntry_cons_skip h1]
          exact (leafIndexOf_find k rest htail).2 hf

mutual
/-- get on a well-formed node answers from the flattened entry run: the
stored (value, ts) for the key, or KeyNotFound. -/
theorem get_main : ∀ (n : Node) (k : Key), wfB n = true →
    n.get k = some (match findEntry n.entries k with
      | some e => Except.ok (e.value, e.ts)
      | none => Except.error TErr.keyNotFound)
  | .leaf vs cts cs ms, k, hwf => by
    have hp : List.Pairwise keyLt (keysOf vs) := by
      simpa [Node.entries] using wf_sorted _ hwf
    simp only [Node.get, Node.entries]
    by_cases hf : (leafIndexOf vs k).2 = true
    · obtain ⟨e, hget, hfind⟩ := (leafIndexOf_find k vs hp).1 hf
      rw [if_pos hf, hget, hfind]
    · have hfind := (leafIndexOf_find k vs hp).2 (by simpa using hf)
      rw [if_neg hf, hfind]
  | .inner refs cts cs ms, k, hwf => by
    simp only [wfB, Bool.and_eq_true, Bool.not_eq_true', List.isEmpty_eq_false,
      decide_eq_true_eq] at hwf
    obtain ⟨⟨hne, hrefs⟩, hsorted⟩ := hwf
    simp only [Node.get, Node.entries]
    exact childGet_main refs (innerIndexOf refs k) k hrefs hsorted
      (innerIndexOf_decomp refs k hne)

/-- childGet on a well-formed reference run with the indexOf
decomposition answers from the flattened entry run. -/
theorem childGet_main : ∀ (refs : List ChildRef) (i : Int) (k : Key),
    wfRefsB refs = true →
    List.Pairwise keyLt (keysOf (entriesL refs)) →
    (∃ pre c post, refs = pre ++ c :: post ∧ (pre.length : Int) = i ∧
      (∀ c' ∈ pre, bytesCompare k c'.1 = 1) ∧
      (bytesCompare k c.1 < 1 ∨ (post = [] ∧ bytesCompare k c.1 = 1))) →
    childGet refs i k = some (match findEntry (entriesL refs) k with
      | some e => Except.ok (e.value, e.ts)
      | none => Except.error TErr.keyNotFound)
  | [], i, k, _, _, hdec => by
    obtain ⟨pre, c, post, hdec2, _⟩ := hdec
    exact absurd hdec2 (by simp)
  | c0 :: rest, i, k, hwf, hsorted, hdec => by
    obtain ⟨pre, c, post, hrefs, hlen, hpre, hc⟩ := hdec
    obtain ⟨hc0w, hc0ne, hc0k⟩ := (wfRefsB_iff _).mp hwf c0 (by simp)
    have hc0last : (keysOf (Node.entries c0.2.2)).getLast? = some c0.1 := by
      rw [← maxKey_entries_last c0.2.2 hc0w hc0ne]
      exact hc0k
    cases pre with
    | nil =>
      simp only [List.nil_append, List.cons.injEq] at hrefs
      obtain ⟨hcc0, hpostrest⟩ := hrefs
      subst hcc0
      subst hpostrest
      have hi : i = 0 := by
        rw [← hlen]
        simp
      subst hi
      simp only [childGet]
      rw [if_neg (by omega), if_pos (by trivial)]
      rcases hc with hlt | ⟨hpost, hgt⟩
      · rw [if_neg (by omega)]
        rw [get_main c0.2.2 k hc0w]
        show _ = some (match findEntry (Node.entries c0.2.2 ++ entriesL rest) k with
          | some e => Except.ok (e.value, e.ts)
          | none => Except.error TErr.keyNotFound)
        cases hfe : findEntry (Node.entries c0.2.2) k with
        | some e => rw [findEntry_append_some hfe]
        | none =>
          rw [findEntry_append_none hfe,
            findEntry_none_of_keys_above (entriesL rest) k
              (rest_keys_above c0 rest hsorted hc0last k (by omega))]
      · subst hpost
        rw [if_pos hgt]
        show _ = some (match findEntry (Node.entries c0.2.2 ++ entriesL []) k with
          | some e => Except.ok (e.value, e.ts)
          | none => Except.error TErr.keyNotFound)
        rw [show entriesL [] = [] from rfl, List.append_nil,
          findEntry_none_of_keys_below _ k
            (seg_keys_below c0 hc0w hc0ne hc0k k hgt)]
    | cons p0 pre2 =>
      simp only [List.cons_append, List.cons.injEq] at hrefs
      obtain ⟨hc0p0, hrest⟩ := hrefs
      subst hc0p0
      have hik : 1 ≤ i := by
        rw [← hlen]
        simp only [List.length_cons]
        omega
      have hp0 : bytesCompare k c0.1 = 1 := hpre c0 (by simp)
      have hwfrest : wfRefsB rest = true := by
        rw [wfRefsB_iff]
        intro c' hc'
        exact (wfRefsB_iff _).mp hwf c' (by simp [hc'])
      have hsortedrest : List.Pairwise keyLt (keysOf (entriesL rest)) := by
        have : keysOf (entriesL (c0 :: rest))
            = keysOf (Node.entries c0.2.2) ++ keysOf (entriesL rest) := by
          simp [entriesL, keysOf]
        rw [this] at hsorted
        exact (List.pairwise_append.mp hsorted).2.1
      have ih := childGet_main rest (i - 1) k hwfrest hsortedrest
        ⟨pre2, c, post, hrest, by rw [← hlen]; simp only [List.length_cons]; push_cast; ring,
         fun c' hc' => hpre c' (by simp [hc']), hc⟩
      simp only [childGet]
      rw [if_neg (by omega), if_neg (by omega), ih]
      have hc0none : findEntry (Node.entries c0.2.2) k = none :=
        findEntry_none_of_keys_below _ k (seg_keys_below c0 hc0w hc0ne hc0k k hp0)
      show _ = some (match findEntry (Node.entries c0.2.2 ++ entriesL rest) k with
        | some e => Except.ok (e.value, e.ts)
        | none => Except.error TErr.keyNotFound)
      rw [findEntry_append_none hc0none]
end

/-- A non-empty, strictly ascending leaf is proper. -/
theorem proper_leaf_of (vs : List LeafValue) (cts : Nat) (cs ms : Int)
    (hs : List.Pairwise keyLt (keysOf vs)) (hne : vs ≠ []) :
    proper (.leaf vs cts cs ms) := by
  refine ⟨by simp [wfB, hs], by simpa [Node.entries] using hne, ?_⟩
  rw [leaf_maxKey_keys]
  rfl

/-- A leaf's maxKey is defined exactly on a non-empty run. -/
theorem leaf_maxKey_isSome (vs : List LeafValue) (cts : Nat) (cs ms : Int) :
    (Node.leaf vs cts cs ms).maxKey.isSome = true ↔ vs ≠ [] := by
  rw [leaf_maxKey_keys]
  cases vs with
  | nil => simp [keysOf]
  | cons e es =>
    constructor
    · intro _
      simp
    · intro _
      have : keysOf (e :: es) ≠ [] := by simp [keysOf]
      obtain ⟨a, ha⟩ := Option.isSome_iff_exists.mp (List.getLast?_isSome.mpr this)
      simp [ha]

/-- An inner node's maxKey is defined exactly on a non-empty reference
run. -/
theorem inner_maxKey_isSome (refs : List ChildRef) (cts : Nat) (cs ms : Int) :
    (Node.inner refs cts cs ms).maxKey.isSome = true ↔ refs ≠ [] := by
  simp only [Node.maxKey]
  cases refs with
  | nil => simp
  | cons c cs2 =>
    constructor
    · intro _
      simp
    · intro h
      obtain ⟨a, ha⟩ := Option.isSome_iff_exists.mp (List.getLast?_isSome.mpr h)
      simp [ha]

/-- What leafNode.split returns for a sorted non-empty run: the retained
and returned leaves are proper, and a nil right return means the
retained leaf is non-empty. -/
theorem leafSplit_main (vs : List LeafValue) (cts : Nat) (cs ms : Int)
    (hs : List.Pairwise keyLt (keysOf vs)) (hne : vs ≠ []) :
    ((leafSplit vs cts cs ms).1.maxKey.isSome = true →
      proper (leafSplit vs cts cs ms).1) ∧
    (∀ n2, (leafSplit vs cts cs ms).2 = some n2 → proper n2) ∧
    ((leafSplit vs cts cs ms).2 = none →
      (leafSplit vs cts cs ms).1.maxKey.isSome = true) := by
  unfold leafSplit
  split
  · refine ⟨fun _ => proper_leaf_of vs cts cs ms hs hne, by simp, fun _ => ?_⟩
    exact (leaf_maxKey_isSome vs cts cs ms).mpr hne
  · set si := (leafSplitInfo vs ms).1 with hsi
    have hslt : si < vs.length := by
      have := splitInfoGo_fst_lt ms (vs.map LeafValue.size) 0 0 (by simpa using hne)
      simpa [leafSplitInfo, hsi] using this
    refine ⟨fun hsome => ?_, fun n2 hn2 => ?_, by simp⟩
    · have htne : vs.take si ≠ [] :=
        (leaf_maxKey_isSome _ _ _ _).mp hsome
      refine proper_leaf_of _ _ _ _ ?_ htne
      refine List.Pairwise.sublist ?_ hs
      rw [keysOf, List.map_take]
      exact List.take_sublist si (keysOf vs)
    · have hdne : vs.drop si ≠ [] := by
        apply List.ne_nil_of_length_pos
        rw [List.length_drop]
        omega
      have hn2' : n2 = Node.leaf (vs.drop si) (updateTsL (vs.drop si))
          (cs - (leafSplitInfo vs ms).2) ms := (Option.some.inj hn2).symm
      rw [hn2']
      refine proper_leaf_of _ _ _ _ ?_ hdne
      refine List.Pairwise.sublist ?_ hs
      rw [keysOf, List.map_drop]
      exact List.drop_sublist si (keysOf vs)

/-- What leafNode.insertAt returns on a sorted run: the in-order entries
are the spec-side insertion, and the returned nodes are proper. -/
theorem leafInsertAt_main (es : List LeafValue) (cs ms : Int) (k : Key) (v : Val)
    (ts : Nat) (hs : List.Pairwise keyLt (keysOf es)) :
    entriesPair (leafInsertAt es cs ms k v ts) = insEntries es k v ts ∧
    ((leafInsertAt es cs ms k v ts).1.maxKey.isSome = true →
      proper (leafInsertAt es cs ms k v ts).1) ∧
    (∀ n2, (leafInsertAt es cs ms k v ts).2 = some n2 → proper n2) ∧
    ((leafInsertAt es cs ms k v ts).2 = none →
      (leafInsertAt es cs ms k v ts).1.maxKey.isSome = true) := by
  have hins : List.Pairwise keyLt (keysOf (insEntries es k v ts)) :=
    insEntries_sorted k v ts es hs
  refine ⟨leafInsertAt_entries es cs ms k v ts, ?_⟩
  by_cases hf : (leafIndexOf es k).2 = true
  · have heq : insEntries es k v ts
        = es.take (leafIndexOf es k).1 ++
          (⟨k, ts, (match es.get? (leafIndexOf es k).1 with
                    | some old => old.ts | none => 0), v⟩ : LeafValue) ::
          es.drop ((leafIndexOf es k).1 + 1) :=
      (scan_insert_found k v ts es hf).symm
    simp only [leafInsertAt, hf, if_true]
    refine ⟨fun _ => ?_, by simp, fun _ => ?_⟩
    · refine proper_leaf_of _ _ _ _ ?_ (by simp)
      rw [← heq]
      exact hins
    · exact (leaf_maxKey_isSome _ _ _ _).mpr (by simp)
  · have heq : insEntries es k v ts
        = es.take (leafIndexOf es k).1 ++
          (⟨k, ts, 0, v⟩ : LeafValue) :: es.drop (leafIndexOf es k).1 :=
      (scan_insert_notfound k v ts es (by simpa using hf)).symm
    simp only [leafInsertAt, hf, Bool.false_eq_true, if_false]
    have := leafSplit_main
      (es.take (leafIndexOf es k).1 ++
        (⟨k, ts, 0, v⟩ : LeafValue) :: es.drop (leafIndexOf es k).1)
      ts (cs + (⟨k, ts, 0, v⟩ : LeafValue).size) ms
      (by rw [← heq]; exact hins) (by simp)
    exact this

/-- What innerNode.split returns for a well-formed sorted non-empty run:
the retained and returned nodes are proper, and a nil right return means
the retained run is non-empty. -/
theorem innerSplit_main (refs : List ChildRef) (cts : Nat) (cs ms : Int)
    (hwfr : wfRefsB refs = true)
    (hsorted : List.Pairwise keyLt (keysOf (entriesL refs))) (hne : refs ≠ []) :
    ((innerSplit refs cts cs ms).1.maxKey.isSome = true →
      proper (innerSplit refs cts cs ms).1) ∧
    (∀ n2, (innerSplit refs cts cs ms).2 = some n2 → proper n2) ∧
    ((innerSplit refs cts cs ms).2 = none →
      (innerSplit refs cts cs ms).1.maxKey.isSome = true) := by
  have hmk : ∀ (refs2 : List ChildRef) (cts2 : Nat) (cs2 : Int),
      refs2 ≠ [] → wfRefsB refs2 = true →
      List.Pairwise keyLt (keysOf (entriesL refs2)) →
      proper (Node.inner refs2 cts2 cs2 ms) := by
    intro refs2 cts2 cs2 h1 h2 h3
    have hwfn : wfB (Node.inner refs2 cts2 cs2 ms) = true := by
      simp [wfB, h2, h3, List.isEmpty_eq_false.mpr h1]
    refine ⟨hwfn, ?_, ?_⟩
    · simpa [Node.entries] using entriesL_ne_nil refs2 h2 h1
    · exact maxKey_entries_last _ hwfn
        (by simpa [Node.entries] using entriesL_ne_nil refs2 h2 h1)
  unfold innerSplit
  split
  · exact ⟨fun _ => hmk refs cts cs hne hwfr hsorted, by simp,
      fun _ => (inner_maxKey_isSome _ _ _ _).mpr hne⟩
  · set si := (innerSplitInfo refs ms).1 with hsi
    have hslt : si < refs.length := by
      have := splitInfoGo_fst_lt ms (refs.map (fun c => (c.1.length : Int))) 0 0
        (by simpa using hne)
      simpa [innerSplitInfo, hsi] using this
    have hsplitflat : entriesL (refs.take si) ++ entriesL (refs.drop si)
        = entriesL refs := by
      rw [← entriesL_append, List.take_append_drop]
    refine ⟨fun hsome => ?_, fun n2 hn2 => ?_, by simp⟩
    · have htne : refs.take si ≠ [] :=
        (inner_maxKey_isSome _ _ _ _).mp hsome
      refine hmk _ _ _ htne ?_ ?_
      · rw [wfRefsB_iff]
        intro c' hc'
        exact (wfRefsB_iff refs).mp hwfr c' (List.take_subset _ _ hc')
      · have : List.Pairwise keyLt
            (keysOf (entriesL (refs.take si) ++ entriesL (refs.drop si))) := by
          rw [hsplitflat]
          exact hsorted
        rw [keysOf, List.map_append] at this
        exact (List.pairwise_append.mp this).1
    · have hdne : refs.drop si ≠ [] := by
        apply List.ne_nil_of_length_pos
        rw [List.length_drop]
        omega
      have hn2' : n2 = Node.inner (refs.drop si) (updateTsI (refs.drop si))
          (cs - (innerSplitInfo refs ms).2) ms := (Option.some.inj hn2).symm
      rw [hn2']
      refine hmk _ _ _ hdne ?_ ?_
      · rw [wfRefsB_iff]
        intro c' hc'
        exact (wfRefsB_iff refs).mp hwfr c' (List.drop_subset _ _ hc')
      · have : List.Pairwise keyLt
            (keysOf (entriesL (refs.take si) ++ entriesL (refs.drop si))) := by
          rw [hsplitflat]
          exact hsorted
        rw [keysOf, List.map_append] at this
        exact (List.pairwise_append.mp this).2.1

mutual
/-- What insertAt does on a well-formed node: the returned run of
entries is the spec-side insertion into the flattened run, and the
returned nodes are proper (the retained node whenever its maxKey is
defined, the split-off node always; no split means the retained node is
non-empty). -/
theorem insertAt_main : ∀ (n : Node) (k : Key) (v : Val) (ts : Nat),
    wfB n = true → ∀ n1 n2o, n.insertAt k v ts = some (.ok (n1, n2o)) →
      entriesPair (n1, n2o) = insEntries n.entries k v ts ∧
      (n1.maxKey.isSome = true → proper n1) ∧
      (∀ n2, n2o = some n2 → proper n2) ∧
      (n2o = none → n1.maxKey.isSome = true)
  | .leaf vs cts cs ms, k, v, ts, hwf, n1, n2o, hres => by
    have hs : List.Pairwise keyLt (keysOf vs) := by
      simpa [Node.entries] using wf_sorted _ hwf
    have hmain := leafInsertAt_main vs cs ms k v ts hs
    simp only [Node.insertAt] at hres
    have hpair : leafInsertAt vs cs ms k v ts = (n1, n2o) :=
      Except.ok.inj (Option.some.inj hres)
    have h1 : (leafInsertAt vs cs ms k v ts).1 = n1 := by rw [hpair]
    have h2 : (leafInsertAt vs cs ms k v ts).2 = n2o := by rw [hpair]
    subst h1
    subst h2
    exact hmain
  | .inner refs cts cs ms, k, v, ts, hwf, n1, n2o, hres => by
    simp only [wfB, Bool.and_eq_true, Bool.not_eq_true', List.isEmpty_eq_false,
      decide_eq_true_eq] at hwf
    obtain ⟨⟨hne, hrefs⟩, hsorted⟩ := hwf
    simp only [Node.insertAt] at hres
    cases hci : childInsert refs (innerIndexOf refs k) k v ts with
    | none =>
      rw [hci] at hres
      exact absurd hres (by simp)
    | some r =>
      rw [hci] at hres
      cases r with
      | error e => exact absurd hres (by simp)
      | ok p =>
        obtain ⟨newRefs, sp⟩ := p
        obtain ⟨hent, hwfnew, hsortednew, hnenew⟩ :=
          childInsert_main refs (innerIndexOf refs k) k v ts hrefs hsorted
            (innerIndexOf_decomp refs k hne) newRefs sp hci
        cases sp with
        | false =>
          have hpair : (Node.inner newRefs ts (updateSizeI newRefs) ms,
              (none : Option Node)) = (n1, n2o) :=
            Except.ok.inj (Option.some.inj hres)
          injection hpair with h1 h2
          subst h1
          subst h2
          have hwfn : wfB (Node.inner newRefs ts (updateSizeI newRefs) ms) = true := by
            simp [wfB, hwfnew, hsortednew, List.isEmpty_eq_false.mpr hnenew]
          have hentne : Node.entries
              (Node.inner newRefs ts (updateSizeI newRefs) ms) ≠ [] := by
            simpa [Node.entries] using entriesL_ne_nil newRefs hwfnew hnenew
          refine ⟨?_, fun _ => ⟨hwfn, hentne, maxKey_entries_last _ hwfn hentne⟩,
            by simp, fun _ => (inner_maxKey_isSome _ _ _ _).mpr hnenew⟩
          show entriesL newRefs ++ [] = insEntries (entriesL refs) k v ts
          rw [List.append_nil]
          exact hent
        | true =>
          have hpair : innerSplit newRefs ts (updateSizeI newRefs) ms = (n1, n2o) :=
            Except.ok.inj (Option.some.inj hres)
          have h1 : (innerSplit newRefs ts (updateSizeI newRefs) ms).1 = n1 := by
            rw [hpair]
          have h2 : (innerSplit newRefs ts (updateSizeI newRefs) ms).2 = n2o := by
            rw [hpair]
          subst h1
          subst h2
          obtain ⟨hp1, hp2, hp3⟩ :=
            innerSplit_main newRefs ts (updateSizeI newRefs) ms hwfnew hsortednew hnenew
          refine ⟨?_, hp1, hp2, hp3⟩
          show entriesPair _ = _
          rw [innerSplit_entries]
          exact hent

/-- What childInsert does on a well-formed reference run at the indexOf
position: the flattened run of entries of the rebuilt reference run is
the spec-side insertion into the old flattened run, and the rebuilt run
is well-formed, sorted and non-empty. -/
theorem childInsert_main : ∀ (refs : List ChildRef) (i : Int) (k : Key) (v : Val)
    (ts : Nat),
    wfRefsB refs = true →
    List.Pairwise keyLt (keysOf (entriesL refs)) →
    (∃ pre c post, refs = pre ++ c :: post ∧ (pre.length : Int) = i ∧
      (∀ c' ∈ pre, bytesCompare k c'.1 = 1) ∧
      (bytesCompare k c.1 < 1 ∨ (post = [] ∧ bytesCompare k c.1 = 1))) →
    ∀ newRefs sp, childInsert refs i k v ts = some (.ok (newRefs, sp)) →
      entriesL newRefs = insEntries (entriesL refs) k v ts ∧
      wfRefsB newRefs = true ∧
      List.Pairwise keyLt (keysOf (entriesL newRefs)) ∧
      newRefs ≠ []
  | [], i, k, v, ts, _, _, hdec, newRefs, sp, hres => by
    obtain ⟨pre, c, post, hd, _⟩ := hdec
    exact absurd hd (by simp)
  | c0 :: rest, i, k, v, ts, hwf, hsorted, hdec, newRefs, sp, hres => by
    obtain ⟨pre, c, post, hrefs2, hlen, hpre, hc⟩ := hdec
    obtain ⟨hc0w, hc0ne, hc0k⟩ := (wfRefsB_iff _).mp hwf c0 (by simp)
    have hc0last : (keysOf (Node.entries c0.2.2)).getLast? = some c0.1 := by
      rw [← maxKey_entries_last c0.2.2 hc0w hc0ne]
      exact hc0k
    cases pre with
    | nil =>
      simp only [List.nil_append, List.cons.injEq] at hrefs2
      obtain ⟨hcc0, hpostrest⟩ := hrefs2
      subst hcc0
      subst hpostrest
      have hi : i = 0 := by
        rw [← hlen]
        simp
      subst hi
      simp only [childInsert] at hres
      rw [if_neg (by omega), if_pos (by trivial)] at hres
      cases hcall : c0.2.2.insertAt k v ts with
      | none =>
        rw [hcall] at hres
        exact absurd hres (by simp)
      | some rr =>
        rw [hcall] at hres
        cases rr with
        | error e => exact absurd hres (by simp)
        | ok pp =>
          obtain ⟨c1, c2o⟩ := pp
          obtain ⟨hent, hprop1, hprop2, hnone1⟩ :=
            insertAt_main c0.2.2 k v ts hc0w c1 c2o hcall
          have hinsflat : entriesPair (c1, c2o) ++ entriesL rest
              = insEntries (entriesL (c0 :: rest)) k v ts := by
            rcases hc with hlt | ⟨hpost, hgt⟩
            · have hnotlt : ¬ keyLt c0.1 k := by
                intro hcon
                have : bytesCompare k c0.1 = 1 := (bc_one_iff k c0.1).mpr hcon
                omega
              show entriesPair (c1, c2o) ++ entriesL rest
                = insEntries (Node.entries c0.2.2 ++ entriesL rest) k v ts
              rw [insEntries_append_right k v ts _ _ c0.1 hc0last hnotlt]
              exact congrArg (fun l => l ++ entriesL rest) hent
            · subst hpost
              show entriesPair (c1, c2o) ++ entriesL ([] : List ChildRef)
                = insEntries (Node.entries c0.2.2 ++ entriesL ([] : List ChildRef)) k v ts
              rw [show entriesL ([] : List ChildRef) = [] from rfl,
                List.append_nil, List.append_nil]
              exact hent
          cases c2o with
          | none =>
            have hres2 : (match c1.maxKey with
                | none => (none : Option (Except TErr (List ChildRef × Bool)))
                | some mk1 => some (.ok ((mk1, c1.ts, c1) :: rest, false)))
                = some (.ok (newRefs, sp)) := hres
            cases hmk1 : c1.maxKey with
            | none =>
              rw [hmk1] at hres2
              exact absurd hres2 (by simp)
            | some mk1 =>
              rw [hmk1] at hres2
              have hpair := Except.ok.inj (Option.some.inj hres2)
              injection hpair with hnr hsp
              subst hnr
              subst hsp
              have hp1 := hprop1 (by simp [hmk1])
              have hentnew : entriesL ((mk1, c1.ts, c1) :: rest)
                  = insEntries (entriesL (c0 :: rest)) k v ts := by
                show Node.entries c1 ++ entriesL rest = _
                rw [← hinsflat]
                simp [entriesPair]
              refine ⟨hentnew, ?_, ?_, by simp⟩
              · rw [wfRefsB_iff]
                intro c' hc'
                rcases List.mem_cons.mp hc' with hc' | hc'
                · subst hc'
                  exact ⟨hp1.1, hp1.2.1, hmk1⟩
                · exact (wfRefsB_iff _).mp hwf c' (by simp [hc'])
              · rw [hentnew]
                exact insEntries_sorted k v ts _ hsorted
          | some c2 =>
            have hres2 : (match c1.maxKey, c2.maxKey with
                | some mk1, some mk2 =>
                  some (Except.ok ((mk1, c1.ts, c1) :: (mk2, c2.ts, c2) :: rest, true))
                | _, _ => (none : Option (Except TErr (List ChildRef × Bool))))
                = some (.ok (newRefs, sp)) := hres
            cases hmk1 : c1.maxKey with
            | none =>
              cases hmk2 : c2.maxKey with
              | none =>
                rw [hmk1, hmk2] at hres2
                exact absurd hres2 (by simp)
              | some mk2 =>
                rw [hmk1, hmk2] at hres2
                exact absurd hres2 (by simp)
            | some mk1 =>
              cases hmk2 : c2.maxKey with
              | none =>
                rw [hmk1, hmk2] at hres2
                exact absurd hres2 (by simp)
              | some mk2 =>
                rw [hmk1, hmk2] at hres2
                have hpair := Except.ok.inj (Option.some.inj hres2)
                injection hpair with hnr hsp
                subst hnr
                subst hsp
                have hp1 := hprop1 (by simp [hmk1])
                have hp2 := hprop2 c2 rfl
                have hentnew : entriesL ((mk1, c1.ts, c1) :: (mk2, c2.ts, c2) :: rest)
                    = insEntries (entriesL (c0 :: rest)) k v ts := by
                  show Node.entries c1 ++ (Node.entries c2 ++ entriesL rest) = _
                  rw [← hinsflat]
                  simp [entriesPair]
                refine ⟨hentnew, ?_, ?_, by simp⟩
                · rw [wfRefsB_iff]
                  intro c' hc'
                  rcases List.mem_cons.mp hc' with hc' | hc'
                  · subst hc'
                    exact ⟨hp1.1, hp1.2.1, hmk1⟩
                  · rcases List.mem_cons.mp hc' with hc' | hc'
                    · subst hc'
                      exact ⟨hp2.1, hp2.2.1, hmk2⟩
                    · exact (wfRefsB_iff _).mp hwf c' (by simp [hc'])
                · rw [hentnew]
                  exact insEntries_sorted k v ts _ hsorted
    | cons p0 pre2 =>
      simp only [List.cons_append, List.cons.injEq] at hrefs2
      obtain ⟨hc0p0, hrest⟩ := hrefs2
      subst hc0p0
      have hik : 1 ≤ i := by
        rw [← hlen]
        simp only [List.length_cons]
        omega
      have hp0 : bytesCompare k c0.1 = 1 := hpre c0 (by simp)
      have hbelow : ∀ e ∈ Node.entries c0.2.2, keyLt e.key k :=
        seg_keys_below c0 hc0w hc0ne hc0k k hp0
      have hwfrest : wfRefsB rest = true := by
        rw [wfRefsB_iff]
        intro c' hc'
        exact (wfRefsB_iff _).mp hwf c' (by simp [hc'])
      have hsortedrest : List.Pairwise keyLt (keysOf (entriesL rest)) := by
        have hksplit : keysOf (entriesL (c0 :: rest))
            = keysOf (Node.entries c0.2.2) ++ keysOf (entriesL rest) := by
          simp [entriesL, keysOf]
        rw [hksplit] at hsorted
        exact (List.pairwise_append.mp hsorted).2.1
      simp only [childInsert] at hres
      rw [if_neg (by omega), if_neg (by omega)] at hres
      cases hcall : childInsert rest (i - 1) k v ts with
      | none =>
        rw [hcall] at hres
        exact absurd hres (by simp)
      | some rr =>
        rw [hcall] at hres
        cases rr with
        | error e => exact absurd hres (by simp)
        | ok pp =>
          obtain ⟨rest2, sp2⟩ := pp
          have hpair := Except.ok.inj (Option.some.inj hres)
          injection hpair with hnr hsp
          subst hnr
          subst hsp
          obtain ⟨hent2, hwf2, hsorted2, hne2⟩ :=
            childInsert_main rest (i - 1) k v ts hwfrest hsortedrest
              ⟨pre2, c, post, hrest,
               by rw [← hlen]; simp only [List.length_cons]; push_cast; ring,
               fun c' hc' => hpre c' (by simp [hc']), hc⟩ rest2 sp2 hcall
          have hentnew : entriesL (c0 :: rest2)
              = insEntries (entriesL (c0 :: rest)) k v ts := by
            show Node.entries c0.2.2 ++ entriesL rest2
              = insEntries (Node.entries c0.2.2 ++ entriesL rest) k v ts
            rw [insEntries_append_left k v ts _ _ hbelow, hent2]
          refine ⟨hentnew, ?_, ?_, by simp⟩
          · rw [wfRefsB_iff]
            intro c' hc'
            rcases List.mem_cons.mp hc' with hc' | hc'
            · subst hc'
              exact ⟨hc0w, hc0ne, hc0k⟩
            · exact (wfRefsB_iff _).mp hwf2 c' hc'
          · rw [hentnew]
            exact insEntries_sorted k v ts _ hsorted
end

/-- Tree-level insert correctness: a successful Insert preserves
well-formedness of the root's node graph and rewrites the flattened
in-order entry run by the one-key insertion. -/
theorem tbinsert_main (t : TBtree) (k : Key) (v : Val) (ts : Nat) (t2 : TBtree)
    (hw : wfB t.root = true)
    (hres : t.insert (some k) v ts = some (t2, none)) :
    wfB t2.root = true ∧
    t2.root.entries = insEntries t.root.entries k v ts := by
  simp only [TBtree.insert] at hres
  by_cases hc : t.closed
  · rw [if_pos hc] at hres
    simp at hres
  · rw [if_neg hc] at hres
    by_cases hts : t.root.ts ≥ ts
    · rw [if_pos hts] at hres
      simp at hres
    · rw [if_neg hts] at hres
      cases hcall : t.root.insertAt k v ts with
      | none =>
        rw [hcall] at hres
        exact absurd hres (by simp)
      | some rr =>
        rw [hcall] at hres
        cases rr with
        | error e =>
          have hres2 : some (t, some e) = some (t2, (none : Option TErr)) := hres
          simp at hres2
        | ok pp =>
          obtain ⟨n1, n2o⟩ := pp
          obtain ⟨hent, hprop1, hprop2, hnone1⟩ :=
            insertAt_main t.root k v ts hw n1 n2o hcall
          cases n2o with
          | none =>
            have hres2 : some ((⟨n1, t.maxNodeSize, t.insertionCount + 1,
                t.insertionCountThreshold, t.lastFlushedTs, t.snapshots,
                t.maxSnapshotId, t.closed⟩ : TBtree), (none : Option TErr))
                = some (t2, none) := hres
            have hpair := Option.some.inj hres2
            injection hpair with h1 _
            subst h1
            have hp1 := hprop1 (hnone1 rfl)
            refine ⟨hp1.1, ?_⟩
            show Node.entries n1 = insEntries t.root.entries k v ts
            simpa [entriesPair] using hent
          | some n2 =>
            have hp2 := hprop2 n2 rfl
            have hres2 : (match n1.maxKey, n2.maxKey with
                | some k1, some k2 =>
                  some ((⟨.inner [(k1, n1.ts, n1), (k2, n2.ts, n2)] ts
                    (updateSizeI [(k1, n1.ts, n1), (k2, n2.ts, n2)]) t.maxNodeSize,
                    t.maxNodeSize, t.insertionCount + 1, t.insertionCountThreshold,
                    t.lastFlushedTs, t.snapshots, t.maxSnapshotId, t.closed⟩ : TBtree),
                    (none : Option TErr))
                | _, _ => none) = some (t2, none) := hres
            cases hmk1 : n1.maxKey with
            | none =>
              cases hmk2 : n2.maxKey with
              | none =>
                rw [hmk1, hmk2] at hres2
                exact absurd hres2 (by simp)
              | some k2 =>
                rw [hmk1, hmk2] at hres2
                exact absurd hres2 (by simp)
            | some k1 =>
              cases hmk2 : n2.maxKey with
              | none =>
                rw [hmk1, hmk2] at hres2
                exact absurd hres2 (by simp)
              | some k2 =>
                rw [hmk1, hmk2] at hres2
                have hpair := Option.some.inj hres2
                injection hpair with h1 _
                subst h1
                have hp1 := hprop1 (by simp [hmk1])
                have hentflat : entriesL [(k1, n1.ts, n1), (k2, n2.ts, n2)]
                    = insEntries t.root.entries k v ts := by
                  show Node.entries n1 ++ (Node.entries n2 ++ entriesL []) = _
                  rw [← hent]
                  simp [entriesPair, entriesL]
                constructor
                · show wfB (Node.inner [(k1, n1.ts, n1), (k2, n2.ts, n2)] ts
                    (updateSizeI [(k1, n1.ts, n1), (k2, n2.ts, n2)]) t.maxNodeSize) = true
                  simp only [wfB, Bool.and_eq_true, decide_eq_true_eq]
                  refine ⟨⟨by simp, ?_⟩, ?_⟩
                  · rw [wfRefsB_iff]
                    intro c hc'
                    rcases List.mem_cons.mp hc' with hc' | hc'
                    · subst hc'
                      exact ⟨hp1.1, hp1.2.1, hmk1⟩
                    · rcases List.mem_cons.mp hc' with hc' | hc'
                      · subst hc'
                        exact ⟨hp2.1, hp2.2.1, hmk2⟩
                      · simp at hc'
                  · rw [hentflat]
                    exact insEntries_sorted k v ts _ (wf_sorted _ hw)
                · show Node.entries (Node.inner [(k1, n1.ts, n1), (k2, n2.ts, n2)] ts
                    (updateSizeI [(k1, n1.ts, n1), (k2, n2.ts, n2)]) t.maxNodeSize) = _
                  rw [show Node.entries (Node.inner [(k1, n1.ts, n1), (k2, n2.ts, n2)] ts
                    (updateSizeI [(k1, n1.ts, n1), (k2, n2.ts, n2)]) t.maxNodeSize)
                    = entriesL [(k1, n1.ts, n1), (k2, n2.ts, n2)] from rfl]
                  exact hentflat

/-- A run of successful inserts preserves root well-formedness and leaves
the stored entry of every untouched key unchanged. -/
theorem multiInsert_main : ∀ (ops : List (Key × Val × Nat)) (t tm : TBtree),
    wfB t.root = true → multiInsert t ops = some tm →
    wfB tm.root = true ∧
    ∀ k2, (∀ op ∈ ops, op.1 ≠ k2) →
      findEntry tm.root.entries k2 = findEntry t.root.entries k2
  | [], t, tm, hw, hm => by
    have ht : t = tm := Option.some.inj hm
    subst ht
    exact ⟨hw, fun _ _ => rfl⟩
  | (k, v, ts) :: ops, t, tm, hw, hm => by
    simp only [multiInsert] at hm
    cases hcall : t.insert (some k) v ts with
    | none =>
      rw [hcall] at hm
      exact absurd hm (by simp)
    | some rr =>
      rw [hcall] at hm
      obtain ⟨t1, eo⟩ := rr
      cases eo with
      | some e =>
        have hm2 : (none : Option TBtree) = some tm := hm
        exact absurd hm2 (by simp)
      | none =>
        have hm2 : multiInsert t1 ops = some tm := hm
        obtain ⟨hw1, hent1⟩ := tbinsert_main t k v ts t1 hw hcall
        obtain ⟨hwm, hfindm⟩ := multiInsert_main ops t1 tm hw1 hm2
        refine ⟨hwm, fun k2 hk2 => ?_⟩
        rw [hfindm k2 (fun op hop => hk2 op (by simp [hop])), hent1,
          findEntry_insEntries_other k v ts k2
            (fun h => hk2 (k, v, ts) (by simp) h.symm) t.root.entries]

/-- [C2] Latest write wins per key: after a successful Insert of (k, v1, t1s),
any run of successful inserts of other keys, and a successful Insert of
(k, v2, t2s) with t2s > t1s, get(k) returns (v2, t2s) and the stored entry
for k is (k, ts = t2s, prevTs = t1s, v2). -/
theorem latest_write_wins (t t1 tm t2 : TBtree) (k : Key) (v1 v2 : Val)
    (t1s t2s : Nat) (ops : List (Key × Val × Nat))
    (hw : wfB t.root = true)
    (h1 : t.insert (some k) v1 t1s = some (t1, none))
    (hm : multiInsert t1 ops = some tm)
    (hops : ∀ op ∈ ops, op.1 ≠ k)
    (h2 : tm.insert (some k) v2 t2s = some (t2, none))
    (hts : t1s < t2s) :
    t2.root.get k = some (.ok (v2, t2s)) ∧
    findEntry t2.root.entries k = some ⟨k, t2s, t1s, v2⟩ := by
  obtain ⟨hw1, hent1⟩ := tbinsert_main t k v1 t1s t1 hw h1
  obtain ⟨hwm, hfindm⟩ := multiInsert_main ops t1 tm hw1 hm
  obtain ⟨hw2, hent2⟩ := tbinsert_main tm k v2 t2s t2 hwm h2
  have hfind1 : findEntry t1.root.entries k = some ⟨k, t1s,
      (match findEntry t.root.entries k with | some e => e.ts | none => 0), v1⟩ := by
    rw [hent1]
    exact findEntry_insEntries_self k v1 t1s t.root.entries (wf_sorted _ hw)
  have hfindtm : findEntry tm.root.entries k = some ⟨k, t1s,
      (match findEntry t.root.entries k with | some e => e.ts | none => 0), v1⟩ := by
    rw [hfindm k hops]
    exact hfind1
  have hfind2 : findEntry t2.root.entries k = some ⟨k, t2s, t1s, v2⟩ := by
    rw [hent2,
      findEntry_insEntries_self k v2 t2s tm.root.entries (wf_sorted _ hwm), hfindtm]
  refine ⟨?_, hfind2⟩
  rw [get_main t2.root k hw2, hfind2]

/-- Witness for C2 at a concrete input: insert ("a","1",1), then ("b","2",2),
then ("a","3",3) into a fresh maxNodeSize-64 tree; get("a") returns ("3",3)
and the stored entry records prevTs = 1. -/
theorem latest_write_wins_witness :
    ((⟨.leaf [⟨[97], 3, 1, [51]⟩, ⟨[98], 2, 0, [50]⟩] 3 36 64,
      64, 3, 100000, 0, [], 0, false⟩ : TBtree)).root.get [97]
      = some (.ok ([51], 3)) ∧
    findEntry ((⟨.leaf [⟨[97], 3, 1, [51]⟩, ⟨[98], 2, 0, [50]⟩] 3 36 64,
      64, 3, 100000, 0, [], 0, false⟩ : TBtree)).root.entries [97]
      = some ⟨[97], 3, 1, [51]⟩ :=
  latest_write_wins
    ⟨.leaf [] 0 0 64, 64, 0, 100000, 0, [], 0, false⟩
    ⟨.leaf [⟨[97], 1, 0, [49]⟩] 1 18 64, 64, 1, 100000, 0, [], 0, false⟩
    ⟨.leaf [⟨[97], 1, 0, [49]⟩, ⟨[98], 2, 0, [50]⟩] 2 36 64,
      64, 2, 100000, 0, [], 0, false⟩
    ⟨.leaf [⟨[97], 3, 1, [51]⟩, ⟨[98], 2, 0, [50]⟩] 3 36 64,
      64, 3, 100000, 0, [], 0, false⟩
    [97] [49] [51] 1 3 [([98], [50], 2)]
    (by decide) rfl rfl (by decide) rfl (by decide)

/-- Any Insert return (success or error) leaves the snapshot table
untouched: every branch of Insert copies t.snapshots unchanged. -/
theorem insert_preserves_snapshots (t : TBtree) (key : Option Key) (value : Val)
    (ts : Nat) (t2 : TBtree) (eo : Option TErr)
    (h : t.insert key value ts = some (t2, eo)) : t2.snapshots = t.snapshots := by
  unfold TBtree.insert at h
  split at h
  · rw [← ((Prod.mk.injEq _ _ _ _).mp (Option.some.inj h)).1]
  · split at h
    · rw [← ((Prod.mk.injEq _ _ _ _).mp (Option.some.inj h)).1]
    · split at h
      · rw [← ((Prod.mk.injEq _ _ _ _).mp (Option.some.inj h)).1]
      · split at h <;> (try split at h) <;> simp_all <;> rw [← h.1]

/-- A run of successful Inserts leaves the snapshot table untouched. -/
theorem multiInsert_preserves_snapshots : ∀ (ops : List (Key × Val × Nat))
    (t tm : TBtree), multiInsert t ops = some tm → tm.snapshots = t.snapshots
  | [], t, tm, hm => by rw [← Option.some.inj hm]
  | (k, v, ts) :: ops, t, tm, hm => by
    simp only [multiInsert] at hm
    cases hcall : t.insert (some k) v ts with
    | none =>
      rw [hcall] at hm
      exact absurd hm (by simp)
    | some rr =>
      rw [hcall] at hm
      obtain ⟨t1, eo⟩ := rr
      cases eo with
      | some e =>
        have hm2 : (none : Option TBtree) = some tm := hm
        exact absurd hm2 (by simp)
      | none =>
        have hm2 : multiInsert t1 ops = some tm := hm
        rw [multiInsert_preserves_snapshots ops t1 tm hm2,
          insert_preserves_snapshots t (some k) v ts t1 none hcall]

/-- [C6] Copy-on-write isolation: every node graph captured in the snapshot
table survives any run of subsequent successful inserts unchanged — the
table still yields the very same snapshot record (same id, same root node
graph), so get on the captured root returns the same result for every key
before and after the inserts. -/
theorem snapshot_reads_unchanged_by_inserts (t tm : TBtree)
    (ops : List (Key × Val × Nat)) (sid : Nat) (s : Snapshot)
    (hm : multiInsert t ops = some tm)
    (hlook : List.lookup sid t.snapshots = some s) :
    List.lookup sid tm.snapshots = some s ∧
    ∀ k2 r, s.root.get k2 = r →
      ∃ s2, List.lookup sid tm.snapshots = some s2 ∧ s2.root.get k2 = r := by
  have hsnap : tm.snapshots = t.snapshots :=
    multiInsert_preserves_snapshots ops t tm hm
  rw [hsnap]
  exact ⟨hlook, fun k2 r hr => ⟨s, hlook, hr⟩⟩

/-- Witness for C6 at a concrete input: after one insert into a tree holding
snapshot 0 (captured on the fresh default tree), the table still yields the
snapshot with the original empty-leaf root. -/
theorem snapshot_reads_unchanged_by_inserts_witness :
    List.lookup 0 ((⟨.leaf [⟨[97], 1, 0, [49]⟩] 1 18 4096, 4096, 1, 100000, 0,
      [(0, ⟨0, .leaf [] 0 0 4096⟩)], 1, false⟩ : TBtree)).snapshots
      = some ⟨0, .leaf [] 0 0 4096⟩ ∧
    ∀ k2 r, (⟨0, (.leaf [] 0 0 4096 : Node)⟩ : Snapshot).root.get k2 = r →
      ∃ s2, List.lookup 0 ((⟨.leaf [⟨[97], 1, 0, [49]⟩] 1 18 4096, 4096, 1,
        100000, 0, [(0, ⟨0, .leaf [] 0 0 4096⟩)], 1, false⟩ : TBtree)).snapshots
          = some s2 ∧ s2.root.get k2 = r :=
  snapshot_reads_unchanged_by_inserts c6tree
    ⟨.leaf [⟨[97], 1, 0, [49]⟩] 1 18 4096, 4096, 1, 100000, 0,
      [(0, ⟨0, .leaf [] 0 0 4096⟩)], 1, false⟩
    [([97], [49], 1)] 0 ⟨0, .leaf [] 0 0 4096⟩ rfl rfl

end TBTreeGo
